import Mathlib

/-!
Verification of the BPE subword tokenizer in `src/bpe/bpe.py`.

Strings are modelled as `List Char` (one symbol per code point, matching
Python's string model).  Python `dict`s are modelled as association lists
with insertion-order semantics: assignment to an existing key updates the
value in place, assignment to a fresh key appends at the end, and
iteration follows list order, which is exactly the observable behaviour
of Python 3.7+ dicts.  All recursion is structural (fuel counters stand
in for `while` loops) so that every definition evaluates inside the
kernel.
-/

/-- The characters Python's `str.split()` (no separator argument) treats
as whitespace, restricted to the ASCII range used throughout. -/
def isWs (c : Char) : Bool :=
  c == ' ' || c == '\t' || c == '\n' || c == '\r' || c == '\x0b' || c == '\x0c'

/-- Python dict assignment `d[k] = v`: update in place if the key exists,
otherwise append the new binding at the end. -/
def dictInsert {α β : Type} [DecidableEq α] (k : α) (v : β) :
    List (α × β) → List (α × β)
  | [] => [(k, v)]
  | (k', v') :: rest =>
      if k' = k then (k', v) :: rest else (k', v') :: dictInsert k v rest

/-- Python `if k not in d: d[k] = 0` followed by `d[k] += n`. -/
def dictAdd {α : Type} [DecidableEq α] (k : α) (n : Nat) :
    List (α × Nat) → List (α × Nat)
  | [] => [(k, n)]
  | (k', v') :: rest =>
      if k' = k then (k', v' + n) :: rest else (k', v') :: dictAdd k n rest

/-- Python `max(d, key=d.get)`: the first key (in insertion order)
attaining the maximal value, returned together with its value. -/
def dictArgmax {α : Type} : List (α × Nat) → Option (α × Nat)
  | [] => none
  | (k, v) :: rest =>
      match dictArgmax rest with
      | none => some (k, v)
      | some (k', v') => if v' > v then some (k', v') else some (k, v)

/-- Fuel-driven core of Python `str.split()`: skip whitespace, then cut
the next maximal non-whitespace run.  The fuel is an upper bound on the
remaining length, so `splitWs` below always supplies enough. -/
def splitWsGo : Nat → List Char → List (List Char)
  | 0, _ => []
  | _ + 1, [] => []
  | fuel + 1, c :: cs =>
      if isWs c then splitWsGo fuel cs
      else (c :: cs.takeWhile (fun x => !isWs x)) ::
             splitWsGo fuel (cs.dropWhile (fun x => !isWs x))

/-- Python `s.split()`. -/
def splitWs (s : List Char) : List (List Char) :=
  splitWsGo s.length s

/-- Python `' '.join(word)` where `word` is a string, i.e. the characters
of `word` joined by single spaces. -/
def sjoinChars : List Char → List Char
  | [] => []
  | [c] => [c]
  | c :: c2 :: cs => c :: ' ' :: sjoinChars (c2 :: cs)

/-- Python `' '.join(tokens)` for a list of strings. -/
def sjoinTokens : List (List Char) → List Char
  | [] => []
  | [w] => w
  | w :: w2 :: ws => w ++ ' ' :: sjoinTokens (w2 :: ws)

/-- Fuel-driven core of Python `s.replace(pat, rep)` for a non-empty
pattern: scan left to right, replacing non-overlapping occurrences.
(The callers in `bpe.py` always pass the pattern `token1 + ' ' + token2`,
which is never empty, so Python's special empty-pattern behaviour is
irrelevant; the guard below makes an empty pattern a no-op.) -/
def strReplaceGo (pat rep : List Char) : Nat → List Char → List Char
  | 0, s => s
  | _ + 1, [] => []
  | fuel + 1, c :: cs =>
      if pat ≠ [] ∧ pat.isPrefixOf (c :: cs) then
        rep ++ strReplaceGo pat rep fuel ((c :: cs).drop pat.length)
      else
        c :: strReplaceGo pat rep fuel cs

/-- Python `s.replace(pat, rep)` (non-empty pattern). -/
def strReplace (s pat rep : List Char) : List Char :=
  strReplaceGo pat rep s.length s

/-- The tokenizer state: `vocab` maps a word's space-joined segmentation
to its corpus frequency, `bpe_codes` maps `"token1 token2"` to the merged
token `token1 ++ token2`.  (`BPE.__init__` starts both empty.) -/
structure BPE where
  vocab : List (List Char × Nat)
  bpe_codes : List (List Char × List Char)
deriving DecidableEq, Repr

/-- `BPE()`: empty vocabulary and merge table. -/
def BPE.init : BPE := ⟨[], []⟩

/-- First phase of `BPE.train`: count whitespace-separated words of every
sentence (`self.vocab[word] += 1` with default 0). -/
def buildVocab (corpus : List (List Char)) (v : List (List Char × Nat)) :
    List (List Char × Nat) :=
  corpus.foldl (fun v sentence =>
    (splitWs sentence).foldl (fun v w => dictAdd w 1 v) v) v

/-- Second phase of `BPE.train`: re-key every word by its character
segmentation `' '.join(word)`, keeping the frequency. -/
def splitVocab (v : List (List Char × Nat)) : List (List Char × Nat) :=
  v.foldl (fun nv wf => dictInsert (sjoinChars wf.1) wf.2 nv) []

/-- `BPE.get_pairs`: frequencies of adjacent symbol pairs over the
current vocabulary, each pair weighted by its entry's frequency. -/
def get_pairs (vocab : List (List Char × Nat)) :
    List ((List Char × List Char) × Nat) :=
  vocab.foldl (fun pairs wf =>
    let symbols := splitWs wf.1
    (symbols.zip symbols.tail).foldl (fun ps pr => dictAdd pr wf.2 ps) pairs) []

/-- `BPE.update_vocab`: rewrite every entry's key by the string-level
replacement of `token1 ++ " " ++ token2` with `new_token`
(`word.replace(token1 + ' ' + token2, new_token)`), re-inserting under
dict-assignment semantics. -/
def update_vocab (token1 token2 new_token : List Char)
    (vocab : List (List Char × Nat)) : List (List Char × Nat) :=
  vocab.foldl (fun nv wf =>
    dictInsert (strReplace wf.1 (token1 ++ ' ' :: token2) new_token) wf.2 nv) []

/-- `BPE.merge_tokens`: record the merge in `bpe_codes` and rewrite the
vocabulary. -/
def merge_tokens (st : BPE) (token1 token2 : List Char) : BPE :=
  let new_token := token1 ++ token2
  { vocab := update_vocab token1 token2 new_token st.vocab
    bpe_codes := dictInsert (token1 ++ ' ' :: token2) new_token st.bpe_codes }

/-- The merge loop of `BPE.train` (`for _ in range(max_merges)` with its
three break conditions: vocabulary-size target reached, no pairs left,
best pair frequency ≤ 1). -/
def trainLoop (vocab_size : Nat) : Nat → BPE → BPE
  | 0, st => st
  | fuel + 1, st =>
      if st.vocab.length ≥ vocab_size then st
      else
        match dictArgmax (get_pairs st.vocab) with
        | none => st
        | some (bp, v) =>
            if v ≤ 1 then st
            else trainLoop vocab_size fuel (merge_tokens st bp.1 bp.2)

/-- `BPE.train`: build the word-frequency vocabulary, split it into
characters, then run the merge loop. -/
def train (st : BPE) (corpus : List (List Char)) (vocab_size max_merges : Nat) :
    BPE :=
  trainLoop vocab_size max_merges
    { st with vocab := splitVocab (buildVocab corpus st.vocab) }

/-- Training a freshly constructed instance. -/
def trainBPE (corpus : List (List Char)) (vocab_size max_merges : Nat) : BPE :=
  train BPE.init corpus vocab_size max_merges

/-- Python `word in self.bpe_codes.values()`. -/
def isValue (codes : List (List Char × List Char)) (w : List Char) : Bool :=
  codes.any (fun p => p.2 == w)

/-- The inner scan of `BPE.encode_word`: try `j = len(word), ..., i+1`
and return the first `j` whose slice `word[i:j]` is a merge output.  The
counter `k` stands for `j - i`. -/
def findSubFrom (codes : List (List Char × List Char)) (w : List Char)
    (i : Nat) : Nat → Option (Nat × List Char)
  | 0 => none
  | k + 1 =>
      let j := i + k + 1
      let cand := (w.take j).drop i
      if isValue codes cand then some (j, cand) else findSubFrom codes w i k

/-- The `while i < len(word)` loop of `BPE.encode_word`; `none` means the
fuel ran out (shown unreachable for fuel ≥ `len(word) - i`). -/
def encodeWordGo (codes : List (List Char × List Char)) (w : List Char) :
    Nat → Nat → Option (List (List Char))
  | i, 0 => if i < w.length then none else some []
  | i, fuel + 1 =>
      if i < w.length then
        match findSubFrom codes w i (w.length - i) with
        | some jc =>
            (encodeWordGo codes w jc.1 fuel).map (fun rest => jc.2 :: rest)
        | none =>
            (encodeWordGo codes w (i + 1) fuel).map
              (fun rest => [w.getD i ' '] :: rest)
      else some []

/-- `BPE.encode_word`. -/
def encode_word (codes : List (List Char × List Char)) (w : List Char) :
    List (List Char) :=
  if isValue codes w then [w]
  else (encodeWordGo codes w 0 w.length).getD []

/-- `BPE.encode`: split the sentence on whitespace and concatenate the
encodings of the words. -/
def encode (codes : List (List Char × List Char)) (sentence : List Char) :
    List (List Char) :=
  (splitWs sentence).foldl (fun acc w => acc ++ encode_word codes w) []

/-- The inner `while` of `BPE.decode`: absorb following tokens that are
merge outputs onto the current fragment.  The counter `k` stands for
`len(encoded_sentence) - j`. -/
def decodeAbsorb (codes : List (List Char × List Char))
    (ts : List (List Char)) : Nat → List Char → Nat → List Char × Nat
  | 0, token, j => (token, j)
  | k + 1, token, j =>
      if j < ts.length ∧ isValue codes (ts.getD j []) then
        decodeAbsorb codes ts k (token ++ ts.getD j []) (j + 1)
      else (token, j)

/-- The outer `while i < len(encoded_sentence)` loop of `BPE.decode`;
`none` means the fuel ran out (shown unreachable for sufficient fuel). -/
def decodeGo (codes : List (List Char × List Char)) (ts : List (List Char)) :
    Nat → Nat → Option (List (List Char))
  | i, 0 => if i < ts.length then none else some []
  | i, fuel + 1 =>
      if i < ts.length then
        let token := ts.getD i []
        if isValue codes token then
          (decodeGo codes ts (i + 1) fuel).map (fun rest => token :: rest)
        else
          let fj := decodeAbsorb codes ts (ts.length - (i + 1)) token (i + 1)
          (decodeGo codes ts fj.2 fuel).map (fun rest => fj.1 :: rest)
      else some []

/-- `BPE.decode`: reconstruct the words and join them with spaces. -/
def decode (codes : List (List Char × List Char)) (ts : List (List Char)) :
    List Char :=
  sjoinTokens ((decodeGo codes ts 0 ts.length).getD [])

/-- The statistics record returned by `BPE.get_stats`; the average merged
token length is an exact rational standing for Python's float. -/
structure Stats where
  num_unique_tokens : Nat
  num_merges_performed : Nat
  avg_encoded_token_length : ℚ
deriving DecidableEq

/-- `BPE.get_stats`.  Python computes
`sum(len(t) for t in bpe_codes.values()) / len(bpe_codes)` unguarded;
with an empty merge table this raises `ZeroDivisionError`, modelled as
`none`. -/
def get_stats (st : BPE) : Option Stats :=
  if st.bpe_codes.length = 0 then none
  else some
    { num_unique_tokens := st.vocab.length
      num_merges_performed := st.bpe_codes.length
      avg_encoded_token_length :=
        ((st.bpe_codes.map (fun p => p.2.length)).sum : ℚ) /
          (st.bpe_codes.length : ℚ) }

/-- All non-whitespace characters of a string, in order. -/
def delWs (s : List Char) : List Char :=
  s.filter (fun c => !isWs c)

/-- Modelled from the spec's description of the vocabulary rewrite: replace
every occurrence of the two-symbol sequence `(token1, token2)` in a
segmentation by the single symbol `new_token`, operating on whole symbols
only, greedily left to right. -/
def specSymbolMerge (token1 token2 new_token : List Char) :
    List (List Char) → List (List Char)
  | [] => []
  | [s] => [s]
  | s1 :: s2 :: rest =>
      if s1 = token1 ∧ s2 = token2 then
        new_token :: specSymbolMerge token1 token2 new_token rest
      else s1 :: specSymbolMerge token1 token2 new_token (s2 :: rest)

/-- Modelled from the spec: the vocabulary rewrite acting on whole symbols
of every entry's segmentation (the spec-side counterpart of
`update_vocab`). -/
def specUpdateVocab (token1 token2 new_token : List Char)
    (vocab : List (List Char × Nat)) : List (List Char × Nat) :=
  vocab.foldl (fun nv wf =>
    dictInsert (sjoinTokens (specSymbolMerge token1 token2 new_token
      (splitWs wf.1))) wf.2 nv) []

/-- The symbol-level reading of one `str.replace` pass over a joined
symbol list: `cur` is the output symbol being accumulated and `off` the
scan-resume offset inside it (characters before `off` were consumed by
the previous replacement, so no new match may start there). -/
def glueScan (u v : List Char) : List Char → Nat → List (List Char) → List (List Char)
  | cur, _, [] => [cur]
  | cur, off, S :: rest =>
      if u ≠ [] ∧ off + u.length ≤ cur.length ∧ u.isSuffixOf cur ∧ v.isPrefixOf S
      then glueScan u v (cur ++ S) (cur.length + v.length) rest
      else cur :: glueScan u v S 0 rest

/-- The separator-prefixed join of the remaining symbols. -/
def sjoinTail : List (List Char) → List Char
  | [] => []
  | S :: rest => ' ' :: (S ++ sjoinTail rest)

/-- A string with no space character (symbols and tokens are such). -/
def noSp (s : List Char) : Prop := ' ' ∉ s

/-- The partition refinement of `glueScan`: the current output block is
kept as the list `g` of original symbols it glues. -/
def glueScanP (u v : List Char) :
    List (List Char) → Nat → List (List Char) → List (List (List Char))
  | g, _, [] => [g]
  | g, off, S :: rest =>
      if u ≠ [] ∧ off + u.length ≤ g.flatten.length ∧
          u.isSuffixOf g.flatten ∧ v.isPrefixOf S
      then glueScanP u v (g ++ [S]) (g.flatten.length + v.length) rest
      else g :: glueScanP u v [S] 0 rest

/-- Two adjacent chains of whole symbols concatenating to `x` and `y`. -/
def ChainPair (x y : List Char) (syms : List (List Char)) : Prop :=
  ∃ pre c1 c2 post, syms = pre ++ c1 ++ c2 ++ post ∧ c1 ≠ [] ∧ c2 ≠ [] ∧
    c1.flatten = x ∧ c2.flatten = y

/-- A string free of whitespace characters (every vocabulary symbol is). -/
def wsFree (s : List Char) : Prop := ∀ c ∈ s, isWs c = false

/-- A well-formed vocabulary key: its whitespace split is a nonempty list
of nonempty whitespace-free symbols, and the key is exactly the
space-join of that split (as every key produced by training is). -/
def GoodKey (k : List Char) : Prop :=
  splitWs k ≠ [] ∧ (∀ S ∈ splitWs k, S ≠ [] ∧ wsFree S) ∧
    k = sjoinTokens (splitWs k)

/-- Segmentation consistency: any two aligned symbol spans (from any two
entries) covering the same character string are segmented identically.
Training preserves this because every entry is rewritten by the same
left-to-right replacement. -/
def Consistent (vocab : List (List Char × Nat)) : Prop :=
  ∀ kf1 ∈ vocab, ∀ kf2 ∈ vocab,
    ∀ (p1 m1 q1 p2 m2 q2 : List (List Char)),
      splitWs kf1.1 = p1 ++ m1 ++ q1 → splitWs kf2.1 = p2 ++ m2 ++ q2 →
      m1.flatten = m2.flatten → m1 = m2

/-- No vocabulary entry contains an adjacent run of symbols whose
concatenations spell an already-merged pair: once `(t1, t2)` has been
merged, the replacement has consumed every such adjacency. -/
def NoChain (codes : List (List Char × List Char))
    (vocab : List (List Char × Nat)) : Prop :=
  ∀ t1 t2 : List Char, wsFree t1 → wsFree t2 →
    (t1 ++ ' ' :: t2) ∈ codes.map Prod.fst →
    ∀ kf ∈ vocab, ¬ ChainPair t1 t2 (splitWs kf.1)

/-- The training invariant: well-formed keys, segmentation consistency,
no re-mergeable pair adjacency, and entries pairwise distinct after
removing whitespace (so the rewrite fold never collides two entries). -/
def TrainInv (st : BPE) : Prop :=
  (∀ kf ∈ st.vocab, GoodKey kf.1) ∧ Consistent st.vocab ∧
    NoChain st.bpe_codes st.vocab ∧
    (st.vocab.map (fun kf => delWs kf.1)).Pairwise (· ≠ ·)

/-- The states the merge loop of `train` (run on a fresh instance) passes
through: the seeded initial state, and one merge step under the loop's
conditions (vocabulary below target size, a best pair exists, its
frequency exceeds 1). -/
inductive TrainReach (corpus : List (List Char)) (N : Nat) : BPE → Prop
  | seed : TrainReach corpus N ⟨splitVocab (buildVocab corpus []), []⟩
  | step (st : BPE) (bp : List Char × List Char) (v : Nat) :
      TrainReach corpus N st → st.vocab.length < N →
      dictArgmax (get_pairs st.vocab) = some (bp, v) → 1 < v →
      TrainReach corpus N (merge_tokens st bp.1 bp.2)

/-- C1: on the corpus `["aa aa bb"]` (with generous size and merge
budgets) training seeds the vocabulary `{"a a": 2, "b b": 1}`, performs
exactly the single merge `"a a" -> "aa"` leaving `{"aa": 2, "b b": 1}`,
and stops because the best remaining pair `("b","b")` has frequency 1;
afterwards `encode "aa" = ["aa"]`, `encode "bb" = ["b","b"]`,
`decode ["aa"] = "aa"`, `decode ["b","b"] = "b b"`, and in particular
`decode (encode "bb") ≠ "bb"`. -/
theorem c1_concrete_scenario :
    splitVocab (buildVocab ["aa aa bb".toList] []) =
        [("a a".toList, 2), ("b b".toList, 1)] ∧
      trainBPE ["aa aa bb".toList] 1000 10 =
        ⟨[("aa".toList, 2), ("b b".toList, 1)],
         [("a a".toList, "aa".toList)]⟩ ∧
      dictArgmax (get_pairs (trainBPE ["aa aa bb".toList] 1000 10).vocab) =
        some (("b".toList, "b".toList), 1) ∧
      encode (trainBPE ["aa aa bb".toList] 1000 10).bpe_codes "aa".toList =
        ["aa".toList] ∧
      encode (trainBPE ["aa aa bb".toList] 1000 10).bpe_codes "bb".toList =
        ["b".toList, "b".toList] ∧
      decode (trainBPE ["aa aa bb".toList] 1000 10).bpe_codes ["aa".toList] =
        "aa".toList ∧
      decode (trainBPE ["aa aa bb".toList] 1000 10).bpe_codes
          ["b".toList, "b".toList] = "b b".toList ∧
      decode (trainBPE ["aa aa bb".toList] 1000 10).bpe_codes
          (encode (trainBPE ["aa aa bb".toList] 1000 10).bpe_codes
            "bb".toList) ≠ "bb".toList := by
  decide

/-- C2 (counterexample): `update_vocab` is a raw substring replacement on
the joined key, so on the entry `"xa a y"` (symbols `xa`, `a`, `y`, which
contain no adjacent `(a, a)` symbol pair) merging `(a, a)` fuses the
suffix `a` of the symbol `xa` with the following whole symbol `a`,
producing `"xaa y"`, while the spec's whole-symbol rewrite leaves the
entry unchanged.  The same partial fusion is reached by an actual
training run on the corpus `["xa xa xa aa aa xaay"]`. -/
theorem c2_counterexample :
    update_vocab "a".toList "a".toList "aa".toList [("xa a y".toList, 1)] =
        [("xaa y".toList, 1)] ∧
      specUpdateVocab "a".toList "a".toList "aa".toList
          [("xa a y".toList, 1)] = [("xa a y".toList, 1)] ∧
      update_vocab "a".toList "a".toList "aa".toList [("xa a y".toList, 1)] ≠
        specUpdateVocab "a".toList "a".toList "aa".toList
          [("xa a y".toList, 1)] ∧
      trainBPE ["xa xa xa aa aa xaay".toList] 1000 10 =
        ⟨[("xa".toList, 3), ("aa".toList, 2), ("xaa y".toList, 1)],
         [("x a".toList, "xa".toList), ("a a".toList, "aa".toList)]⟩ := by
  decide

/-- C3: the code computes
`sum(len(token) for token in bpe_codes.values()) / len(bpe_codes)` with
no guard, so on a model with zero merges performed (e.g. a freshly
constructed instance) `get_stats` raises `ZeroDivisionError` (modelled as
`none`) instead of returning a sentinel. -/
theorem c3_stats_zero_merges : get_stats BPE.init = none := rfl

/-- C8: for any model state and any token `t` that is a merge-table
output value, `encode_word t` returns `[t]` and `decode [t]` returns `t`,
so decoding the encoding of such a whole word reproduces it exactly. -/
theorem c8_whole_word_round_trip (codes : List (List Char × List Char))
    (t : List Char) (h : isValue codes t = true) :
    encode_word codes t = [t] ∧ decode codes [t] = t := by
  constructor
  · simp [encode_word, h]
  · simp [decode, decodeGo, h, sjoinTokens]

/-- C8 witness: the round trip at the trained merge table
`{"a a": "aa"}` and its output token `"aa"`. -/
theorem c8_whole_word_round_trip_witness :
    encode_word [("a a".toList, "aa".toList)] "aa".toList = ["aa".toList] ∧
      decode [("a a".toList, "aa".toList)] ["aa".toList] = "aa".toList :=
  c8_whole_word_round_trip [("a a".toList, "aa".toList)] "aa".toList
    (by decide)

theorem dictInsert_length_le {α β : Type} [DecidableEq α] (k : α) (v : β)
    (d : List (α × β)) : (dictInsert k v d).length ≤ d.length + 1 := by
  induction d with
  | nil => simp [dictInsert]
  | cons p rest ih =>
      obtain ⟨k', v'⟩ := p
      by_cases h : k' = k <;> simp [dictInsert, h] <;> omega

theorem le_dictInsert_length {α β : Type} [DecidableEq α] (k : α) (v : β)
    (d : List (α × β)) : d.length ≤ (dictInsert k v d).length := by
  induction d with
  | nil => simp [dictInsert]
  | cons p rest ih =>
      obtain ⟨k', v'⟩ := p
      by_cases h : k' = k <;> simp [dictInsert, h] <;> omega

theorem foldl_rekey_length (g : List Char → List Char) :
    ∀ (v acc : List (List Char × Nat)),
      (v.foldl (fun nv wf => dictInsert (g wf.1) wf.2 nv) acc).length ≤
        acc.length + v.length := by
  intro v
  induction v with
  | nil => intro acc; simp
  | cons wf rest ih =>
      intro acc
      calc (List.foldl _ (dictInsert (g wf.1) wf.2 acc) rest).length ≤
              (dictInsert (g wf.1) wf.2 acc).length + rest.length := ih _
        _ ≤ acc.length + 1 + rest.length := by
              have := dictInsert_length_le (g wf.1) wf.2 acc; omega
        _ = acc.length + (wf :: rest).length := by simp; omega

theorem update_vocab_length (t1 t2 nt : List Char)
    (v : List (List Char × Nat)) :
    (update_vocab t1 t2 nt v).length ≤ v.length := by
  have := foldl_rekey_length (fun w => strReplace w (t1 ++ ' ' :: t2) nt) v []
  simpa [update_vocab] using this

theorem trainLoop_vocab_le (N : Nat) :
    ∀ (fuel : Nat) (st : BPE),
      (trainLoop N fuel st).vocab.length ≤ st.vocab.length := by
  intro fuel
  induction fuel with
  | zero => intro st; simp [trainLoop]
  | succ f ih =>
      intro st
      rw [trainLoop]
      by_cases h1 : st.vocab.length ≥ N
      · simp [h1]
      · simp [h1]
        cases hp : dictArgmax (get_pairs st.vocab) with
        | none => simp
        | some pv =>
            by_cases h2 : pv.2 ≤ 1
            · simp [h2]
            · simp [h2]
              calc (trainLoop N f (merge_tokens st pv.1.1 pv.1.2)).vocab.length ≤
                      (merge_tokens st pv.1.1 pv.1.2).vocab.length := ih _
                _ ≤ st.vocab.length :=
                    update_vocab_length _ _ _ _

theorem trainLoop_codes_le (N : Nat) :
    ∀ (fuel : Nat) (st : BPE),
      (trainLoop N fuel st).bpe_codes.length ≤ st.bpe_codes.length + fuel := by
  intro fuel
  induction fuel with
  | zero => intro st; simp [trainLoop]
  | succ f ih =>
      intro st
      rw [trainLoop]
      by_cases h1 : st.vocab.length ≥ N
      · simp [h1]
      · simp [h1]
        cases hp : dictArgmax (get_pairs st.vocab) with
        | none => simp
        | some pv =>
            by_cases h2 : pv.2 ≤ 1
            · simp [h2]
            · simp [h2]
              have h3 := ih (merge_tokens st pv.1.1 pv.1.2)
              have h5 : (merge_tokens st pv.1.1 pv.1.2).bpe_codes.length ≤
                  st.bpe_codes.length + 1 := dictInsert_length_le _ _ _
              omega

theorem trainLoop_stop (N fuel : Nat) (st : BPE)
    (h : N ≤ st.vocab.length) : trainLoop N fuel st = st := by
  cases fuel with
  | zero => simp [trainLoop]
  | succ f => simp [trainLoop, h]

theorem c6_stopping_correctness (corpus : List (List Char)) (N M : Nat)
    (hN : 0 < N) (hM : 0 < M) :
    (trainBPE corpus N M).bpe_codes.length ≤ M ∧
      (trainBPE corpus N M).vocab.length ≤
        (splitVocab (buildVocab corpus [])).length ∧
      (N ≤ (splitVocab (buildVocab corpus [])).length →
        N ≤ (trainBPE corpus N M).vocab.length) := by
  refine ⟨?_, ?_, ?_⟩
  · have h := trainLoop_codes_le N M
      ⟨splitVocab (buildVocab corpus []), []⟩
    simpa [trainBPE, train, BPE.init] using h
  · have h := trainLoop_vocab_le N M
      ⟨splitVocab (buildVocab corpus []), []⟩
    simpa [trainBPE, train, BPE.init] using h
  · intro h
    have h2 : trainLoop N M (⟨splitVocab (buildVocab corpus []), []⟩ : BPE) =
        ⟨splitVocab (buildVocab corpus []), []⟩ :=
      trainLoop_stop N M _ h
    simp [trainBPE, train, BPE.init, h2, h]

theorem c6_stopping_correctness_witness :
    (trainBPE ["a".toList] 1 1).bpe_codes.length ≤ 1 ∧
      (trainBPE ["a".toList] 1 1).vocab.length ≤
        (splitVocab (buildVocab ["a".toList] [])).length ∧
      (1 ≤ (splitVocab (buildVocab ["a".toList] [])).length →
        1 ≤ (trainBPE ["a".toList] 1 1).vocab.length) :=
  c6_stopping_correctness ["a".toList] 1 1 (by decide) (by decide)

theorem findSubFrom_bounds (codes : List (List Char × List Char))
    (w : List Char) (i : Nat) :
    ∀ (k j : Nat) (c : List Char), findSubFrom codes w i k = some (j, c) →
      i < j ∧ j ≤ i + k ∧ c = (w.take j).drop i := by
  intro k
  induction k with
  | zero => intro j c h; simp [findSubFrom] at h
  | succ k ih =>
      intro j c h
      simp only [findSubFrom] at h
      split at h
      · simp only [Option.some.injEq, Prod.mk.injEq] at h
        obtain ⟨hj, hc⟩ := h
        subst hj; subst hc
        refine ⟨by omega, by omega, rfl⟩
      · have h2 := ih j c h
        exact ⟨h2.1, by omega, h2.2.2⟩

theorem encodeWordGo_total (codes : List (List Char × List Char))
    (w : List Char) :
    ∀ (fuel i : Nat), w.length ≤ i + fuel →
      (encodeWordGo codes w i fuel).isSome := by
  intro fuel
  induction fuel with
  | zero =>
      intro i h
      have hi : ¬ i < w.length := by omega
      simp [encodeWordGo, hi]
  | succ f ih =>
      intro i h
      rw [encodeWordGo]
      by_cases hi : i < w.length
      · simp only [hi, if_true]
        cases hf : findSubFrom codes w i (w.length - i) with
        | some jc =>
            have hb := findSubFrom_bounds codes w i (w.length - i) jc.1 jc.2
              (by rw [hf])
            simp only [Option.isSome_map']
            exact ih jc.1 (by omega)
        | none =>
            simp only [Option.isSome_map']
            exact ih (i + 1) (by omega)
      · simp [hi]

theorem decodeAbsorb_ge (codes : List (List Char × List Char))
    (ts : List (List Char)) :
    ∀ (k : Nat) (token : List Char) (j : Nat),
      j ≤ (decodeAbsorb codes ts k token j).2 := by
  intro k
  induction k with
  | zero => intro t j; simp [decodeAbsorb]
  | succ k ih =>
      intro t j
      rw [decodeAbsorb]
      split
      · exact le_trans (Nat.le_succ j) (ih _ _)
      · simp

theorem decodeGo_total (codes : List (List Char × List Char))
    (ts : List (List Char)) :
    ∀ (fuel i : Nat), ts.length ≤ i + fuel →
      (decodeGo codes ts i fuel).isSome := by
  intro fuel
  induction fuel with
  | zero =>
      intro i h
      have hi : ¬ i < ts.length := by omega
      simp [decodeGo, hi]
  | succ f ih =>
      intro i h
      rw [decodeGo]
      by_cases hi : i < ts.length
      · simp only [hi, if_true]
        split
        · simp only [Option.isSome_map']
          exact ih (i + 1) (by omega)
        · simp only [Option.isSome_map']
          have hge := decodeAbsorb_ge codes ts (ts.length - (i + 1))
            (ts.getD i []) (i + 1)
          exact ih _ (by omega)
      · simp [hi]

theorem c9_totality (codes : List (List Char × List Char)) (w : List Char)
    (ts : List (List Char)) :
    (∃ r, encodeWordGo codes w 0 w.length = some r ∧
        encode_word codes w = if isValue codes w then [w] else r) ∧
      (∃ r, decodeGo codes ts 0 ts.length = some r ∧
        decode codes ts = sjoinTokens r) := by
  constructor
  · obtain ⟨r, hr⟩ := Option.isSome_iff_exists.mp
      (encodeWordGo_total codes w w.length 0 (by omega))
    exact ⟨r, hr, by simp [encode_word, hr]⟩
  · obtain ⟨r, hr⟩ := Option.isSome_iff_exists.mp
      (decodeGo_total codes ts ts.length 0 (by omega))
    exact ⟨r, hr, by simp [decode, hr]⟩

theorem drop_take_append (w : List Char) (i j : Nat) (hij : i ≤ j)
    (hi : i ≤ w.length) : (w.take j).drop i ++ w.drop j = w.drop i := by
  conv_rhs => rw [← List.take_append_drop j w]
  rw [List.drop_append_eq_append_drop]
  have h : i - (w.take j).length = 0 := by
    simp [List.length_take]; omega
  rw [h, List.drop_zero]

theorem encodeWordGo_flatten (codes : List (List Char × List Char))
    (w : List Char) :
    ∀ (fuel i : Nat) (r : List (List Char)),
      encodeWordGo codes w i fuel = some r → r.flatten = w.drop i := by
  intro fuel
  induction fuel with
  | zero =>
      intro i r h
      by_cases hi : i < w.length
      · simp [encodeWordGo, hi] at h
      · simp [encodeWordGo, hi] at h
        subst h
        simp [List.drop_eq_nil_of_le (by omega : w.length ≤ i)]
  | succ f ih =>
      intro i r h
      rw [encodeWordGo] at h
      by_cases hi : i < w.length
      · simp only [hi, if_true] at h
        cases hf : findSubFrom codes w i (w.length - i) with
        | some jc =>
            rw [hf] at h
            obtain ⟨rest, hrest, hr⟩ := Option.map_eq_some'.mp h
            subst hr
            have hb := findSubFrom_bounds codes w i (w.length - i) jc.1 jc.2
              (by rw [hf])
            have hrec := ih jc.1 rest hrest
            simp only [List.flatten_cons, hrec, hb.2.2]
            exact drop_take_append w i jc.1 (by omega) (by omega)
        | none =>
            rw [hf] at h
            obtain ⟨rest, hrest, hr⟩ := Option.map_eq_some'.mp h
            subst hr
            have hrec := ih (i + 1) rest hrest
            simp only [List.flatten_cons, hrec]
            rw [List.getD_eq_getElem w ' ' hi]
            simp [(List.drop_eq_getElem_cons hi).symm]
      · simp only [hi, if_false] at h
        obtain rfl : ([] : List (List Char)) = r := Option.some.injEq _ _ ▸ h
        simp [List.drop_eq_nil_of_le (by omega : w.length ≤ i)]

theorem encode_word_flatten (codes : List (List Char × List Char))
    (w : List Char) : (encode_word codes w).flatten = w := by
  unfold encode_word
  by_cases hv : isValue codes w
  · simp [hv]
  · simp only [hv, if_false]
    obtain ⟨r, hr⟩ := Option.isSome_iff_exists.mp
      (encodeWordGo_total codes w w.length 0 (by omega))
    rw [hr]
    simpa using encodeWordGo_flatten codes w w.length 0 r hr

theorem encode_foldl_flatten (codes : List (List Char × List Char)) :
    ∀ (ws : List (List Char)) (acc : List (List Char)),
      (ws.foldl (fun acc w => acc ++ encode_word codes w) acc).flatten =
        acc.flatten ++ ws.flatten := by
  intro ws
  induction ws with
  | nil => intro acc; simp
  | cons w rest ih =>
      intro acc
      rw [List.foldl_cons, ih]
      simp [encode_word_flatten]

theorem c10_encoder_conservation (codes : List (List Char × List Char))
    (w s : List Char) :
    (encode_word codes w).flatten = w ∧
    (encode codes s).flatten = (splitWs s).flatten := by
  constructor
  · exact encode_word_flatten codes w
  · unfold encode
    rw [encode_foldl_flatten]
    simp

theorem filter_takeWhile_self {α : Type} (p : α → Bool) (l : List α) :
    (l.takeWhile p).filter p = l.takeWhile p := by
  induction l with
  | nil => simp
  | cons c cs ih =>
      by_cases h : p c
      · simp [List.takeWhile_cons, h, List.filter_cons, ih]
      · simp [List.takeWhile_cons, h]

theorem flatten_splitWsGo :
    ∀ (f : Nat) (s : List Char), s.length ≤ f →
      (splitWsGo f s).flatten = delWs s := by
  intro f
  induction f with
  | zero =>
      intro s h
      have hs : s = [] := List.length_eq_zero.mp (by omega)
      subst hs
      simp [splitWsGo, delWs]
  | succ f ih =>
      intro s h
      cases s with
      | nil => simp [splitWsGo, delWs]
      | cons c cs =>
          by_cases hc : isWs c
          · rw [splitWsGo]
            rw [if_pos hc]
            rw [ih cs (by simpa using h)]
            simp [delWs, List.filter_cons, hc]
          · rw [splitWsGo]
            rw [if_neg hc]
            rw [List.flatten_cons]
            rw [ih (cs.dropWhile (fun x => !isWs x))
              (le_trans (List.dropWhile_sublist _).length_le (by simpa using h))]
            simp only [delWs, List.filter_cons, hc]
            simp only [Bool.not_false, if_true]
            conv_rhs => rw [← List.takeWhile_append_dropWhile
              (p := fun x => !isWs x) (l := cs)]
            rw [List.filter_append, filter_takeWhile_self]
            simp

theorem flatten_splitWs (s : List Char) : (splitWs s).flatten = delWs s :=
  flatten_splitWsGo s.length s le_rfl

theorem delWs_append (a b : List Char) :
    delWs (a ++ b) = delWs a ++ delWs b := by
  simp [delWs]

theorem delWs_cons (c : Char) (s : List Char) :
    delWs (c :: s) = if isWs c then delWs s else c :: delWs s := by
  by_cases h : isWs c <;> simp [delWs, List.filter_cons, h]

theorem delWs_strReplaceGo (pat rep : List Char)
    (hpr : delWs pat = delWs rep) :
    ∀ (f : Nat) (s : List Char), s.length ≤ f →
      delWs (strReplaceGo pat rep f s) = delWs s := by
  intro f
  induction f with
  | zero =>
      intro s h
      have hs : s = [] := List.length_eq_zero.mp (by omega)
      subst hs
      simp [strReplaceGo]
  | succ f ih =>
      intro s h
      cases s with
      | nil => simp [strReplaceGo]
      | cons c cs =>
          rw [strReplaceGo]
          by_cases hg : pat ≠ [] ∧ pat.isPrefixOf (c :: cs)
          · rw [if_pos hg]
            obtain ⟨t, ht⟩ := List.isPrefixOf_iff_prefix.mp hg.2
            have hlenpat : 0 < pat.length := List.length_pos.mpr hg.1
            have hdrop : (c :: cs).drop pat.length = t := by
              rw [← ht, List.drop_left]
            have hlent : t.length ≤ f := by
              have h2 := congrArg List.length ht
              simp at h2 h
              omega
            rw [hdrop, delWs_append, ih t hlent, ← ht, delWs_append, hpr]
          · rw [if_neg hg]
            rw [delWs_cons, delWs_cons, ih cs (by simp at h; omega)]

theorem keyMem_dictInsert_self {α β : Type} [DecidableEq α] (k : α) (v : β)
    (d : List (α × β)) : ∃ v', (k, v') ∈ dictInsert k v d := by
  induction d with
  | nil => exact ⟨v, by simp [dictInsert]⟩
  | cons p rest ih =>
      obtain ⟨k', v'⟩ := p
      by_cases h : k' = k
      · subst h
        exact ⟨v, by simp [dictInsert]⟩
      · obtain ⟨v'', hmem⟩ := ih
        exact ⟨v'', by simp [dictInsert, h, hmem]⟩

theorem keyMem_dictInsert_of_keyMem {α β : Type} [DecidableEq α]
    (k k₀ : α) (v : β) (d : List (α × β)) (h : ∃ v', (k₀, v') ∈ d) :
    ∃ v', (k₀, v') ∈ dictInsert k v d := by
  induction d with
  | nil => simp at h
  | cons p rest ih =>
      obtain ⟨k', v'⟩ := p
      obtain ⟨v₀, hmem⟩ := h
      rcases List.mem_cons.mp hmem with heq | htail
      · obtain ⟨hk, hv⟩ := Prod.mk.injEq _ _ _ _ ▸ heq
        by_cases hkk : k' = k
        · subst hkk
          rw [show k₀ = k' from by simp_all]
          exact ⟨v, by simp [dictInsert]⟩
        · rw [show (k₀ : α) = k' from by simp_all]
          exact ⟨v', by simp [dictInsert, hkk]⟩
      · by_cases hkk : k' = k
        · subst hkk
          exact ⟨v₀, by simp [dictInsert, htail]⟩
        · obtain ⟨v₁, h1⟩ := ih ⟨v₀, htail⟩
          exact ⟨v₁, by simp [dictInsert, hkk, h1]⟩

theorem keyMem_foldl_rekey_of_keyMem (g : List Char → List Char)
    (k₀ : List Char) :
    ∀ (v acc : List (List Char × Nat)), (∃ f, (k₀, f) ∈ acc) →
      ∃ f, (k₀, f) ∈ v.foldl (fun nv wf => dictInsert (g wf.1) wf.2 nv) acc := by
  intro v
  induction v with
  | nil => intro acc h; simpa using h
  | cons wf rest ih =>
      intro acc h
      rw [List.foldl_cons]
      exact ih _ (keyMem_dictInsert_of_keyMem _ _ _ _ h)

theorem keyMem_foldl_rekey (g : List Char → List Char)
    (k : List Char) (f : Nat) :
    ∀ (v acc : List (List Char × Nat)), (k, f) ∈ v →
      ∃ f', (g k, f') ∈ v.foldl (fun nv wf => dictInsert (g wf.1) wf.2 nv) acc := by
  intro v
  induction v with
  | nil => intro acc h; simp at h
  | cons wf rest ih =>
      intro acc h
      rcases List.mem_cons.mp h with heq | htail
      · rw [List.foldl_cons]
        subst heq
        exact keyMem_foldl_rekey_of_keyMem g _ rest _
          (keyMem_dictInsert_self _ _ _)
      · rw [List.foldl_cons]
        exact ih _ htail

theorem keyMem_dictAdd_self {α : Type} [DecidableEq α] (k : α) (n : Nat)
    (d : List (α × Nat)) : ∃ v', (k, v') ∈ dictAdd k n d := by
  induction d with
  | nil => exact ⟨n, by simp [dictAdd]⟩
  | cons p rest ih =>
      obtain ⟨k', v'⟩ := p
      by_cases h : k' = k
      · subst h
        exact ⟨v' + n, by simp [dictAdd]⟩
      · obtain ⟨v'', hmem⟩ := ih
        exact ⟨v'', by simp [dictAdd, h, hmem]⟩

theorem keyMem_dictAdd_of_keyMem {α : Type} [DecidableEq α]
    (k k₀ : α) (n : Nat) (d : List (α × Nat)) (h : ∃ v', (k₀, v') ∈ d) :
    ∃ v', (k₀, v') ∈ dictAdd k n d := by
  induction d with
  | nil => simp at h
  | cons p rest ih =>
      obtain ⟨k', v'⟩ := p
      obtain ⟨v₀, hmem⟩ := h
      rcases List.mem_cons.mp hmem with heq | htail
      · obtain ⟨hk, hv⟩ := Prod.mk.injEq _ _ _ _ ▸ heq
        by_cases hkk : k' = k
        · subst hkk
          rw [show k₀ = k' from by simp_all]
          exact ⟨v' + n, by simp [dictAdd]⟩
        · rw [show (k₀ : α) = k' from by simp_all]
          exact ⟨v', by simp [dictAdd, hkk]⟩
      · by_cases hkk : k' = k
        · subst hkk
          exact ⟨v₀, by simp [dictAdd, htail]⟩
        · obtain ⟨v₁, h1⟩ := ih ⟨v₀, htail⟩
          exact ⟨v₁, by simp [dictAdd, hkk, h1]⟩

theorem keyMem_countFold_of_keyMem (k₀ : List Char) :
    ∀ (ws : List (List Char)) (acc : List (List Char × Nat)),
      (∃ f, (k₀, f) ∈ acc) →
      ∃ f, (k₀, f) ∈ ws.foldl (fun v w => dictAdd w 1 v) acc := by
  intro ws
  induction ws with
  | nil => intro acc h; simpa using h
  | cons w rest ih =>
      intro acc h
      rw [List.foldl_cons]
      exact ih _ (keyMem_dictAdd_of_keyMem _ _ _ _ h)

theorem keyMem_countFold (k : List Char) :
    ∀ (ws : List (List Char)) (acc : List (List Char × Nat)), k ∈ ws →
      ∃ f, (k, f) ∈ ws.foldl (fun v w => dictAdd w 1 v) acc := by
  intro ws
  induction ws with
  | nil => intro acc h; simp at h
  | cons w rest ih =>
      intro acc h
      rcases List.mem_cons.mp h with heq | htail
      · rw [List.foldl_cons]
        subst heq
        exact keyMem_countFold_of_keyMem _ rest _ (keyMem_dictAdd_self _ _ _)
      · rw [List.foldl_cons]
        exact ih _ htail

theorem keyMem_buildVocab_of_keyMem (k₀ : List Char) :
    ∀ (corpus : List (List Char)) (acc : List (List Char × Nat)),
      (∃ f, (k₀, f) ∈ acc) → ∃ f, (k₀, f) ∈ buildVocab corpus acc := by
  intro corpus
  induction corpus with
  | nil => intro acc h; simpa [buildVocab] using h
  | cons s rest ih =>
      intro acc h
      have h2 := keyMem_countFold_of_keyMem k₀ (splitWs s) acc h
      simpa [buildVocab, List.foldl_cons] using ih _ h2

theorem keyMem_buildVocab :
    ∀ (corpus : List (List Char)) (acc : List (List Char × Nat))
      (s w : List Char), s ∈ corpus → w ∈ splitWs s →
      ∃ f, (w, f) ∈ buildVocab corpus acc := by
  intro corpus
  induction corpus with
  | nil => intro acc s w hs hw; simp at hs
  | cons s₀ rest ih =>
      intro acc s w hs hw
      have hstep : buildVocab (s₀ :: rest) acc =
          buildVocab rest ((splitWs s₀).foldl (fun v w => dictAdd w 1 v) acc) := by
        simp [buildVocab, List.foldl_cons]
      rcases List.mem_cons.mp hs with heq | htail
      · subst heq
        rw [hstep]
        exact keyMem_buildVocab_of_keyMem w rest _
          (keyMem_countFold w (splitWs s) acc hw)
      · rw [hstep]
        exact ih _ s w htail hw

theorem splitWsGo_mem_wsFree :
    ∀ (f : Nat) (s w : List Char), w ∈ splitWsGo f s →
      ∀ c ∈ w, isWs c = false := by
  intro f
  induction f with
  | zero => intro s w hw; simp [splitWsGo] at hw
  | succ f ih =>
      intro s w hw
      cases s with
      | nil => simp [splitWsGo] at hw
      | cons c cs =>
          rw [splitWsGo] at hw
          by_cases hc : isWs c
          · rw [if_pos hc] at hw
            exact ih cs w hw
          · rw [if_neg hc] at hw
            rcases List.mem_cons.mp hw with heq | htail
            · subst heq
              intro x hx
              rcases List.mem_cons.mp hx with hxc | hxt
              · subst hxc; simpa using hc
              · have := List.mem_takeWhile_imp hxt
                simpa using this
            · exact ih _ w htail

theorem delWs_sjoinChars (w : List Char) (h : ∀ c ∈ w, isWs c = false) :
    delWs (sjoinChars w) = w := by
  induction w with
  | nil => simp [sjoinChars, delWs]
  | cons c cs ih =>
      cases cs with
      | nil =>
          have hc := h c (by simp)
          simp [sjoinChars, delWs, List.filter_cons, hc]
      | cons c2 cs2 =>
          have hc := h c (by simp)
          have hih := ih (fun x hx => h x (List.mem_cons_of_mem _ hx))
          rw [sjoinChars, delWs_cons, delWs_cons, hih]
          simp [hc, show isWs ' ' = true from by decide]

theorem trainLoop_delWs_invariant (N : Nat) :
    ∀ (fuel : Nat) (st : BPE) (w : List Char),
      (∃ k f, (k, f) ∈ st.vocab ∧ delWs k = w) →
      ∃ k f, (k, f) ∈ (trainLoop N fuel st).vocab ∧ delWs k = w := by
  intro fuel
  induction fuel with
  | zero => intro st w h; simpa [trainLoop] using h
  | succ f ih =>
      intro st w h
      rw [trainLoop]
      by_cases h1 : st.vocab.length ≥ N
      · simpa [h1] using h
      · simp only [h1, if_false]
        cases hp : dictArgmax (get_pairs st.vocab) with
        | none => simpa using h
        | some pv =>
            by_cases h2 : pv.2 ≤ 1
            · simpa [h2] using h
            · simp only [h2, if_false]
              apply ih
              obtain ⟨k, fq, hmem, hdel⟩ := h
              have hpr : delWs (pv.1.1 ++ ' ' :: pv.1.2) =
                  delWs (pv.1.1 ++ pv.1.2) := by
                rw [delWs_append, delWs_cons, delWs_append]
                simp [show isWs ' ' = true from by decide]
              obtain ⟨f', hmem'⟩ := keyMem_foldl_rekey
                (fun x => strReplace x (pv.1.1 ++ ' ' :: pv.1.2)
                  (pv.1.1 ++ pv.1.2)) k fq st.vocab [] hmem
              refine ⟨strReplace k (pv.1.1 ++ ' ' :: pv.1.2)
                (pv.1.1 ++ pv.1.2), f', ?_, ?_⟩
              · exact hmem'
              · rw [show strReplace k (pv.1.1 ++ ' ' :: pv.1.2)
                  (pv.1.1 ++ pv.1.2) = strReplaceGo (pv.1.1 ++ ' ' :: pv.1.2)
                  (pv.1.1 ++ pv.1.2) k.length k from rfl]
                rw [delWs_strReplaceGo _ _ hpr k.length k le_rfl, hdel]

theorem c4_character_conservation (corpus : List (List Char)) (N M : Nat)
    (s w : List Char) (hs : s ∈ corpus) (hw : w ∈ splitWs s) :
    ∃ k f, (k, f) ∈ (trainBPE corpus N M).vocab ∧ (splitWs k).flatten = w := by
  obtain ⟨f0, h0⟩ := keyMem_buildVocab corpus [] s w hs hw
  obtain ⟨f1, h1⟩ := keyMem_foldl_rekey sjoinChars w f0
    (buildVocab corpus []) [] h0
  have hdel : delWs (sjoinChars w) = w :=
    delWs_sjoinChars w (splitWsGo_mem_wsFree s.length s w hw)
  have hinv := trainLoop_delWs_invariant N M
    ⟨splitVocab (buildVocab corpus []), []⟩ w ⟨sjoinChars w, f1, h1, hdel⟩
  obtain ⟨k, f, hmem, hdelk⟩ := hinv
  refine ⟨k, f, ?_, ?_⟩
  · simpa [trainBPE, train, BPE.init] using hmem
  · rw [flatten_splitWs, hdelk]

theorem c4_character_conservation_witness :
    ∃ k f, (k, f) ∈ (trainBPE ["aa aa bb".toList] 1000 10).vocab ∧
      (splitWs k).flatten = "bb".toList :=
  c4_character_conservation ["aa aa bb".toList] 1000 10
    "aa aa bb".toList "bb".toList (by decide) (by decide)

theorem sjoinChars_cons (c : Char) (cs : List Char) :
    sjoinChars (c :: cs) =
      c :: (if cs = [] then [] else ' ' :: sjoinChars cs) := by
  cases cs with
  | nil => simp [sjoinChars]
  | cons c2 cs2 => simp [sjoinChars]

theorem length_sjoinChars :
    ∀ cs : List Char, (sjoinChars cs).length =
      if cs = [] then 0 else 2 * cs.length - 1 := by
  intro cs
  induction cs with
  | nil => simp [sjoinChars]
  | cons c rest ih =>
      cases rest with
      | nil => simp [sjoinChars]
      | cons c2 cs2 =>
          rw [sjoinChars]
          simp only [List.length_cons]
          rw [ih]
          simp
          omega

theorem specSymbolMerge_ne_nil (t1 t2 nt : List Char)
    (l : List (List Char)) (h : l ≠ []) :
    specSymbolMerge t1 t2 nt l ≠ [] := by
  cases l with
  | nil => simp at h
  | cons s1 rest =>
      cases rest with
      | nil => simp [specSymbolMerge]
      | cons s2 rest2 =>
          rw [specSymbolMerge]
          split
          · simp
          · simp

theorem sjoinTokens_cons_ne (w : List Char) (L : List (List Char))
    (h : L ≠ []) : sjoinTokens (w :: L) = w ++ ' ' :: sjoinTokens L := by
  cases L with
  | nil => simp at h
  | cons a l => rw [sjoinTokens]

theorem pat_prefix_join (t1 t2 c1 c2 : Char) (X : List Char) :
    ([t1, ' ', t2].isPrefixOf (c1 :: ' ' :: c2 :: X) = true) ↔
      (t1 = c1 ∧ t2 = c2) := by
  simp [List.isPrefixOf]

theorem pat_not_prefix_sep (t1 t2 : Char) (h1 : t1 ≠ ' ') (X : List Char) :
    ¬ ([t1, ' ', t2] ≠ [] ∧ [t1, ' ', t2].isPrefixOf (' ' :: X) = true) := by
  intro hco
  have := hco.2
  simp [List.isPrefixOf] at this
  exact h1 this.1

theorem pat_not_prefix_single (t1 t2 c : Char) :
    ¬ ([t1, ' ', t2] ≠ [] ∧ [t1, ' ', t2].isPrefixOf [c] = true) := by
  intro hco
  have h := hco.2
  simp [List.isPrefixOf] at h

theorem strReplaceGo_nil (pat rep : List Char) (g : Nat) :
    strReplaceGo pat rep g [] = [] := by
  cases g with
  | zero => rfl
  | succ g => rfl

theorem replace_singles (t1 t2 : Char) (h1 : t1 ≠ ' ') :
    ∀ (n : Nat) (cs : List Char), cs.length ≤ n →
      ∀ f, (sjoinChars cs).length ≤ f →
        strReplaceGo [t1, ' ', t2] [t1, t2] f (sjoinChars cs) =
          sjoinTokens (specSymbolMerge [t1] [t2] [t1, t2]
            (cs.map (fun c => [c]))) := by
  intro n
  induction n with
  | zero =>
      intro cs hn f hf
      have hcs : cs = [] := List.length_eq_zero.mp (by omega)
      subst hcs
      simp [sjoinChars, strReplaceGo_nil, specSymbolMerge, sjoinTokens]
  | succ n ihn =>
      intro cs hn f hf
      cases cs with
      | nil =>
          simp [sjoinChars, strReplaceGo_nil, specSymbolMerge, sjoinTokens]
      | cons c1 rest1 =>
          cases rest1 with
          | nil =>
              have hf1 : 1 ≤ f := by
                rw [length_sjoinChars] at hf
                simp at hf
                omega
              obtain ⟨f', rfl⟩ := Nat.exists_eq_add_of_le hf1
              rw [show sjoinChars [c1] = [c1] from rfl]
              rw [show (1 + f' : Nat) = f' + 1 from by omega]
              rw [strReplaceGo]
              rw [if_neg (pat_not_prefix_single t1 t2 c1)]
              rw [strReplaceGo_nil]
              simp [specSymbolMerge, sjoinTokens]
          | cons c2 rest =>
              have hsj : sjoinChars (c1 :: c2 :: rest) =
                  c1 :: ' ' :: sjoinChars (c2 :: rest) := rfl
              have hsj2 : sjoinChars (c2 :: rest) =
                  c2 :: (if rest = [] then [] else ' ' :: sjoinChars rest) :=
                sjoinChars_cons c2 rest
              have hf2 : 2 + (sjoinChars (c2 :: rest)).length ≤ f := by
                rw [hsj] at hf
                simp at hf
                omega
              obtain ⟨f2, rfl⟩ := Nat.exists_eq_add_of_le hf2
              rw [hsj]
              rw [show (2 + (sjoinChars (c2 :: rest)).length + f2 : Nat) =
                ((sjoinChars (c2 :: rest)).length + f2 + 1) + 1 from by omega]
              rw [strReplaceGo]
              by_cases hm : t1 = c1 ∧ t2 = c2
              · rw [if_pos (by
                  refine ⟨by simp, ?_⟩
                  rw [hsj2]
                  exact (pat_prefix_join t1 t2 c1 c2 _).mpr hm)]
                rw [show ((c1 :: ' ' :: sjoinChars (c2 :: rest)).drop
                    [t1, ' ', t2].length) =
                  (sjoinChars (c2 :: rest)).drop 1 from by simp]
                rw [show ((c1 :: c2 :: rest).map (fun c => [c])) =
                  [c1] :: [c2] :: (rest.map (fun c => [c])) from rfl]
                rw [specSymbolMerge]
                rw [if_pos (by simp [hm.1.symm, hm.2.symm])]
                cases rest with
                | nil =>
                    rw [show (sjoinChars [c2]).drop 1 = [] from rfl]
                    rw [strReplaceGo_nil]
                    simp [specSymbolMerge, sjoinTokens]
                | cons c3 rest3 =>
                    rw [show (sjoinChars (c2 :: c3 :: rest3)).drop 1 =
                      ' ' :: sjoinChars (c3 :: rest3) from rfl]
                    have hfuel : (sjoinChars (c2 :: c3 :: rest3)).length + f2 =
                        ((sjoinChars (c3 :: rest3)).length + f2) + 2 := by
                      rw [show sjoinChars (c2 :: c3 :: rest3) =
                        c2 :: ' ' :: sjoinChars (c3 :: rest3) from rfl]
                      simp
                      omega
                    rw [hfuel]
                    rw [show ((sjoinChars (c3 :: rest3)).length + f2 + 2 + 1 :
                      Nat) = ((sjoinChars (c3 :: rest3)).length + f2 + 2) + 1
                      from rfl]
                    rw [strReplaceGo]
                    rw [if_neg (pat_not_prefix_sep t1 t2 h1 _)]
                    rw [ihn (c3 :: rest3) (by simp at hn ⊢; omega)
                      ((sjoinChars (c3 :: rest3)).length + f2 + 2) (by omega)]
                    rw [sjoinTokens_cons_ne _ _
                      (specSymbolMerge_ne_nil [t1] [t2] [t1, t2]
                        ((c3 :: rest3).map (fun c => [c])) (by simp))]
              · rw [if_neg (by
                  intro hco
                  have hp := hco.2
                  rw [hsj2] at hp
                  exact hm ((pat_prefix_join t1 t2 c1 c2 _).mp hp))]
                rw [show ((sjoinChars (c2 :: rest)).length + f2 + 1 : Nat) =
                  ((sjoinChars (c2 :: rest)).length + f2) + 1 from rfl]
                rw [strReplaceGo]
                rw [if_neg (pat_not_prefix_sep t1 t2 h1 _)]
                rw [ihn (c2 :: rest) (by simp at hn ⊢; omega)
                  ((sjoinChars (c2 :: rest)).length + f2) (by omega)]
                rw [show ((c1 :: c2 :: rest).map (fun c => [c])) =
                  [c1] :: [c2] :: (rest.map (fun c => [c])) from rfl]
                rw [specSymbolMerge]
                rw [if_neg (by
                  intro hco
                  exact hm ⟨by simpa using hco.1.symm,
                    by simpa using hco.2.symm⟩)]
                rw [sjoinTokens_cons_ne _ _
                  (specSymbolMerge_ne_nil [t1] [t2] [t1, t2]
                    ([c2] :: rest.map (fun c => [c])) (by simp))]
                simp

theorem c2_amended_single_char_rewrite (t1 t2 : Char) (h1 : t1 ≠ ' ')
    (cs : List Char) (fq : Nat) :
    update_vocab [t1] [t2] [t1, t2] [(sjoinChars cs, fq)] =
      [(sjoinTokens (specSymbolMerge [t1] [t2] [t1, t2]
        (cs.map (fun c => [c]))), fq)] := by
  unfold update_vocab
  rw [List.foldl_cons, List.foldl_nil]
  rw [show strReplace (sjoinChars cs) ([t1] ++ ' ' :: [t2]) [t1, t2] =
    strReplaceGo [t1, ' ', t2] [t1, t2] (sjoinChars cs).length (sjoinChars cs)
    from rfl]
  rw [replace_singles t1 t2 h1 cs.length cs le_rfl
    (sjoinChars cs).length le_rfl]
  rfl

theorem c2_amended_single_char_rewrite_witness :
    update_vocab ['a'] ['a'] ['a', 'a'] [(sjoinChars ['a', 'a', 'a'], 1)] =
      [(sjoinTokens (specSymbolMerge ['a'] ['a'] ['a', 'a']
        (['a', 'a', 'a'].map (fun c => [c]))), 1)] :=
  c2_amended_single_char_rewrite 'a' 'a' (by decide) ['a', 'a', 'a'] 1

theorem c7_counterexample :
    update_vocab "a".toList "b".toList "ab".toList
        [("a b".toList, 2), ("ab".toList, 3)] = [("ab".toList, 3)] ∧
      ("ab".toList, 2 + 3) ∉ update_vocab "a".toList "b".toList "ab".toList
        [("a b".toList, 2), ("ab".toList, 3)] := by
  decide


theorem sjoinTokens_eq_head_tail :
    ∀ (syms : List (List Char)) (c : List Char),
      sjoinTokens (c :: syms) = c ++ sjoinTail syms := by
  intro syms
  induction syms with
  | nil => intro c; simp [sjoinTokens, sjoinTail]
  | cons S rest ih =>
      intro c
      rw [sjoinTokens, ih S, sjoinTail]

theorem strReplaceGo_fuel_irrel (pat rep : List Char) :
    ∀ (f g : Nat) (s : List Char), s.length ≤ f → s.length ≤ g →
      strReplaceGo pat rep f s = strReplaceGo pat rep g s := by
  intro f
  induction f with
  | zero =>
      intro g s hf hg
      have : s = [] := List.length_eq_zero.mp (by omega)
      subst this
      cases g <;> rfl
  | succ f ih =>
      intro g s hf hg
      cases s with
      | nil => cases g <;> rfl
      | cons c cs =>
          cases g with
          | zero => simp at hg
          | succ g =>
              rw [strReplaceGo, strReplaceGo]
              by_cases hc : pat ≠ [] ∧ pat.isPrefixOf (c :: cs)
              · rw [if_pos hc, if_pos hc]
                have hp : 0 < pat.length := List.length_pos.mpr hc.1
                congr 1
                apply ih
                · simp at hf ⊢; omega
                · simp at hg ⊢; omega
              · rw [if_neg hc, if_neg hc]
                congr 1
                apply ih
                · simp at hf; omega
                · simp at hg; omega

theorem strReplace_cons_eq (pat rep : List Char) (s : List Char) (f : Nat)
    (hf : s.length ≤ f) : strReplaceGo pat rep f s = strReplace s pat rep :=
  strReplaceGo_fuel_irrel pat rep f s.length s hf le_rfl

/-- First-space decomposition is unique. -/
theorem firstSpace_unique :
    ∀ (A B P Q : List Char), noSp A → noSp B →
      A ++ ' ' :: P = B ++ ' ' :: Q → A = B ∧ P = Q := by
  intro A
  induction A with
  | nil =>
      intro B P Q _ hB h
      cases B with
      | nil => simpa using h
      | cons b B' =>
          simp at h
          exact absurd (h.1 ▸ List.mem_cons_self b B') (by
            rw [← h.1] at hB
            intro hmem
            exact hB (by simp))
  | cons a A' ih =>
      intro B P Q hA hB h
      cases B with
      | nil =>
          simp at h
          exact absurd (by simp [h.1] : (' ' : Char) ∈ a :: A') hA
      | cons b B' =>
          simp only [List.cons_append, List.cons.injEq] at h
          obtain ⟨hab, h2⟩ := h
          have hA' : noSp A' := fun hm => hA (List.mem_cons_of_mem _ hm)
          have hB' : noSp B' := fun hm => hB (List.mem_cons_of_mem _ hm)
          obtain ⟨h3, h4⟩ := ih B' P Q hA' hB' h2
          exact ⟨by rw [hab, h3], h4⟩

theorem strReplace_noSp (u v rep s : List Char) (hs : noSp s) :
    strReplace s (u ++ ' ' :: v) rep = s := by
  unfold strReplace
  generalize hf : s.length = f
  have hle : s.length ≤ f := le_of_eq hf
  clear hf
  induction f generalizing s with
  | zero =>
      have : s = [] := List.length_eq_zero.mp (by omega)
      subst this
      rfl
  | succ f ih =>
      cases s with
      | nil => rfl
      | cons c cs =>
          rw [strReplaceGo]
          rw [if_neg]
          · rw [ih cs (fun hm => hs (List.mem_cons_of_mem _ hm))
              (by simp at hle; omega)]
          · intro hco
            have hpre := List.isPrefixOf_iff_prefix.mp hco.2
            have hsp : (' ' : Char) ∈ c :: cs :=
              hpre.subset (by simp)
            exact hs hsp

theorem strReplace_match (u v R : List Char) (hu : u ≠ []) (hun : noSp u) :
    ∀ (A : List Char), noSp A →
      strReplace (A ++ u ++ ' ' :: (v ++ R)) (u ++ ' ' :: v) (u ++ v) =
        A ++ u ++ v ++ strReplace R (u ++ ' ' :: v) (u ++ v) := by
  intro A
  induction A with
  | nil =>
      intro _
      simp only [List.nil_append]
      unfold strReplace
      have hlen : (u ++ ' ' :: (v ++ R)).length = u.length + 1 + v.length +
          R.length := by simp; omega
      cases hs : u ++ ' ' :: (v ++ R) with
      | nil => simp at hs
      | cons c cs =>
          rw [← hs, hlen]
          rw [show u.length + 1 + v.length + R.length =
            (u.length + v.length + R.length) + 1 from by omega]
          rw [hs, strReplaceGo, ← hs]
          rw [if_pos]
          · have hdrop : (u ++ ' ' :: (v ++ R)).drop (u ++ ' ' :: v).length =
                R := by
              rw [show u ++ ' ' :: (v ++ R) = (u ++ ' ' :: v) ++ R from by
                simp]
              rw [List.drop_left]
            rw [hdrop]
            rw [strReplace_cons_eq _ _ R _ (by
              have := congrArg List.length hs
              simp at this
              omega)]
            simp [strReplace]
          · constructor
            · simp
            · rw [List.isPrefixOf_iff_prefix]
              exact ⟨R, by simp⟩
  | cons a A' ih =>
      intro hA
      have hA' : noSp A' := fun hm => hA (List.mem_cons_of_mem _ hm)
      have hstep := ih hA'
      unfold strReplace at hstep ⊢
      rw [show (a :: A') ++ u ++ ' ' :: (v ++ R) =
        a :: (A' ++ u ++ ' ' :: (v ++ R)) from by simp]
      rw [show (a :: (A' ++ u ++ ' ' :: (v ++ R))).length =
        (A' ++ u ++ ' ' :: (v ++ R)).length + 1 from by simp]
      rw [strReplaceGo]
      rw [if_neg]
      · rw [hstep]
        simp
      · intro hco
        have hpre := List.isPrefixOf_iff_prefix.mp hco.2
        obtain ⟨t, ht⟩ := hpre
        have ht2 : (u ++ ' ' :: v) ++ t =
            (a :: A' ++ u) ++ ' ' :: (v ++ R) := by
          rw [ht]; simp
        have hfs := firstSpace_unique u (a :: A' ++ u) (v ++ t) (v ++ R)
          hun (by
            intro hm
            simp only [List.cons_append, List.mem_cons, List.mem_append] at hm
            rcases hm with h3 | h4 | h5
            · exact hA (by rw [h3]; exact List.mem_cons_self a A')
            · exact hA (List.mem_cons_of_mem _ h4)
            · exact hun h5)
          (by rw [← ht2]; simp)
        have := congrArg List.length hfs.1
        simp at this
        omega

theorem strReplace_chunk (u v rep : List Char) (hu : u ≠ []) (hun : noSp u) :
    ∀ (A T : List Char), noSp A →
      ¬ (u.isSuffixOf A = true ∧ v.isPrefixOf T = true) →
      strReplace (A ++ ' ' :: T) (u ++ ' ' :: v) rep =
        A ++ ' ' :: strReplace T (u ++ ' ' :: v) rep := by
  intro A
  induction A with
  | nil =>
      intro T _ _
      have hneg : ¬ ((u ++ ' ' :: v) ≠ [] ∧
          (u ++ ' ' :: v).isPrefixOf (' ' :: T) = true) := by
        intro hco
        have hpre := List.isPrefixOf_iff_prefix.mp hco.2
        cases u with
        | nil => exact hu rfl
        | cons u0 u' =>
            obtain ⟨t, ht⟩ := hpre
            simp only [List.cons_append, List.cons.injEq] at ht
            exact hun (by rw [ht.1]; exact List.mem_cons_self ' ' u')
      simp only [List.nil_append]
      unfold strReplace
      rw [show (' ' :: T).length = T.length + 1 from by simp]
      rw [strReplaceGo, if_neg hneg]
  | cons a A' ih =>
      intro T hA hnm
      have hA' : noSp A' := fun hm => hA (List.mem_cons_of_mem _ hm)
      have hnm' : ¬ (u.isSuffixOf A' = true ∧ v.isPrefixOf T = true) := by
        intro hco
        apply hnm
        refine ⟨?_, hco.2⟩
        rw [List.isSuffixOf_iff_suffix] at hco ⊢
        exact hco.1.trans (List.suffix_cons a A')
      have hneg : ¬ ((u ++ ' ' :: v) ≠ [] ∧
          (u ++ ' ' :: v).isPrefixOf (a :: (A' ++ ' ' :: T)) = true) := by
        intro hco
        have hpre := List.isPrefixOf_iff_prefix.mp hco.2
        obtain ⟨t, ht⟩ := hpre
        have ht2 : u ++ ' ' :: (v ++ t) = (a :: A') ++ ' ' :: T := by
          simpa using ht
        have hfs := firstSpace_unique u (a :: A') (v ++ t) T hun hA ht2
        apply hnm
        constructor
        · rw [hfs.1]
          rw [List.isSuffixOf_iff_suffix]
        · rw [List.isPrefixOf_iff_prefix, ← hfs.2]
          exact ⟨t, rfl⟩
      have hstep := ih T hA' hnm'
      unfold strReplace at hstep ⊢
      rw [show (a :: A') ++ ' ' :: T = a :: (A' ++ ' ' :: T) from by simp]
      rw [show (a :: (A' ++ ' ' :: T)).length =
        (A' ++ ' ' :: T).length + 1 from by simp]
      rw [strReplaceGo, if_neg hneg]
      rw [hstep]
      simp

theorem glueScan_ne_nil (u v : List Char) :
    ∀ (syms : List (List Char)) (cur : List Char) (off : Nat),
      glueScan u v cur off syms ≠ [] := by
  intro syms
  induction syms with
  | nil => intro cur off; simp [glueScan]
  | cons S rest ih =>
      intro cur off
      rw [glueScan]
      split
      · exact ih _ _
      · simp

theorem glueScan_head_ext (u v : List Char) :
    ∀ (syms : List (List Char)) (cur : List Char) (off : Nat),
      ∃ ext tail, glueScan u v cur off syms = (cur ++ ext) :: tail := by
  intro syms
  induction syms with
  | nil => intro cur off; exact ⟨[], [], by simp [glueScan]⟩
  | cons S rest ih =>
      intro cur off
      rw [glueScan]
      split
      · obtain ⟨ext, tail, h⟩ := ih (cur ++ S) (cur.length + v.length)
        exact ⟨S ++ ext, tail, by rw [h]; simp⟩
      · exact ⟨[], glueScan u v S 0 rest, by simp⟩

theorem prefix_append_sep (v : List Char) :
    ∀ (S X : List Char), noSp v →
      v.isPrefixOf (S ++ ' ' :: X) = v.isPrefixOf S := by
  induction v with
  | nil => intro S X _; simp [List.isPrefixOf]
  | cons c v' ih =>
      intro S X hv
      cases S with
      | nil =>
          simp only [List.nil_append]
          rw [show (c :: v').isPrefixOf (' ' :: X) = ((c == ' ') &&
            v'.isPrefixOf X) from rfl]
          have hc : (c == ' ') = false := by
            have : c ≠ ' ' := fun h => hv (by simp [h])
            simpa using this
          rw [hc]
          simp [List.isPrefixOf]
      | cons s S' =>
          rw [show (s :: S') ++ ' ' :: X = s :: (S' ++ ' ' :: X) from rfl]
          rw [show (c :: v').isPrefixOf (s :: (S' ++ ' ' :: X)) = ((c == s) &&
            v'.isPrefixOf (S' ++ ' ' :: X)) from rfl]
          rw [show (c :: v').isPrefixOf (s :: S') = ((c == s) &&
            v'.isPrefixOf S') from rfl]
          rw [ih S' X (fun hm => hv (List.mem_cons_of_mem _ hm))]

theorem suffix_of_drop (u cur : List Char) (off : Nat) (hu : u ≠ [])
    (h : u.isSuffixOf (cur.drop off) = true) :
    u.isSuffixOf cur = true ∧ off + u.length ≤ cur.length := by
  rw [List.isSuffixOf_iff_suffix] at h ⊢
  have hupos : 0 < u.length := List.length_pos.mpr hu
  constructor
  · exact h.trans (List.drop_suffix off cur)
  · have h2 := h.length_le
    simp at h2
    omega

theorem drop_append_left (A B : List Char) (off : Nat) (h : off ≤ A.length) :
    (A ++ B).drop off = A.drop off ++ B := by
  rw [List.drop_append_eq_append_drop]
  rw [show off - A.length = 0 from by omega]
  rw [List.drop_zero]

theorem noSp_append (x y : List Char) (hx : noSp x) (hy : noSp y) :
    noSp (x ++ y) := by
  intro hm
  rcases List.mem_append.mp hm with h | h
  · exact hx h
  · exact hy h

theorem noSp_drop (s : List Char) (n : Nat) (hs : noSp s) :
    noSp (s.drop n) := fun hm => hs (List.mem_of_mem_drop hm)

theorem noSp_of_append_left (x y : List Char) (h : noSp (x ++ y)) : noSp x :=
  fun hm => h (List.mem_append.mpr (Or.inl hm))

theorem noSp_of_append_right (x y : List Char) (h : noSp (x ++ y)) : noSp y :=
  fun hm => h (List.mem_append.mpr (Or.inr hm))

theorem strReplace_glueScan (u v : List Char) (hu : u ≠ []) (hun : noSp u)
    (hvn : noSp v) :
    ∀ (syms : List (List Char)) (cur : List Char) (off : Nat),
      noSp cur → (∀ S ∈ syms, noSp S) → off ≤ cur.length →
      strReplace (cur.drop off ++ sjoinTail syms) (u ++ ' ' :: v) (u ++ v) =
        (sjoinTokens (glueScan u v cur off syms)).drop off := by
  intro syms
  induction syms with
  | nil =>
      intro cur off hcur _ hoff
      rw [show sjoinTail [] = [] from rfl, List.append_nil]
      rw [strReplace_noSp u v _ _ (noSp_drop cur off hcur)]
      rw [show glueScan u v cur off [] = [cur] from rfl]
      rw [show sjoinTokens [cur] = cur from rfl]
  | cons S rest ih =>
      intro cur off hcur hsyms hoff
      have hS : noSp S := hsyms S (by simp)
      have hrest : ∀ T ∈ rest, noSp T := fun T hT =>
        hsyms T (List.mem_cons_of_mem _ hT)
      rw [show sjoinTail (S :: rest) = ' ' :: (S ++ sjoinTail rest) from rfl]
      by_cases hcond : u ≠ [] ∧ off + u.length ≤ cur.length ∧
          u.isSuffixOf cur ∧ v.isPrefixOf S
      · -- the boundary is glued
        obtain ⟨B, hB⟩ := List.isSuffixOf_iff_suffix.mp hcond.2.2.1
        obtain ⟨S', hS'⟩ := List.isPrefixOf_iff_prefix.mp hcond.2.2.2
        have hlenB : B.length + u.length = cur.length := by
          have := congrArg List.length hB
          simpa using this
        have hoffB : off ≤ B.length := by
          have := hcond.2.1
          omega
        have hvS : v.length ≤ S.length := by
          have := congrArg List.length hS'
          simp at this
          omega
        have hdropcur : cur.drop off = B.drop off ++ u := by
          rw [← hB, drop_append_left B u off hoffB]
        have hnB : noSp B := by
          have : noSp (B ++ u) := hB ▸ hcur
          exact noSp_of_append_left _ _ this
        have hstr : cur.drop off ++ ' ' :: (S ++ sjoinTail rest) =
            (B.drop off) ++ u ++ ' ' :: (v ++ (S' ++ sjoinTail rest)) := by
          rw [hdropcur, ← hS']
          simp
        rw [hstr]
        rw [strReplace_match u v (S' ++ sjoinTail rest) hu hun (B.drop off)
          (noSp_drop B off hnB)]
        have hrec := ih (cur ++ S) (cur.length + v.length)
          (noSp_append cur S hcur hS) hrest (by simp; omega)
        have hdrop2 : (cur ++ S).drop (cur.length + v.length) = S' := by
          rw [List.drop_append_eq_append_drop]
          rw [List.drop_eq_nil_of_le (by omega)]
          rw [show cur.length + v.length - cur.length = v.length from by omega]
          rw [← hS', List.drop_left]
          simp
        rw [hdrop2] at hrec
        rw [hrec]
        rw [show glueScan u v cur off (S :: rest) =
          glueScan u v (cur ++ S) (cur.length + v.length) rest from by
            rw [glueScan, if_pos hcond]]
        obtain ⟨ext, tail, hout⟩ := glueScan_head_ext u v rest (cur ++ S)
          (cur.length + v.length)
        rw [hout]
        rw [sjoinTokens_eq_head_tail]
        -- both sides are now explicit drops of cur ++ S ++ ext ++ sjoinTail tail
        have hW : (cur ++ S ++ ext) ++ sjoinTail tail =
            cur ++ (S ++ (ext ++ sjoinTail tail)) := by simp
        rw [hW]
        rw [drop_append_left cur _ off hoff]
        rw [List.drop_append_eq_append_drop]
        rw [List.drop_eq_nil_of_le (by omega : cur.length ≤
          cur.length + v.length)]
        rw [show cur.length + v.length - cur.length = v.length from by omega]
        rw [drop_append_left S _ v.length hvS]
        rw [show S.drop v.length = S' from by rw [← hS', List.drop_left]]
        rw [hdropcur]
        simp
        rw [← hS']
        simp
      · -- the boundary is not glued
        have hnomatch : ¬ (u.isSuffixOf (cur.drop off) = true ∧
            v.isPrefixOf (S ++ sjoinTail rest) = true) := by
          intro hco
          obtain ⟨hsfx, hsfx2⟩ := suffix_of_drop u cur off hu hco.1
          apply hcond
          refine ⟨hu, hsfx2, hsfx, ?_⟩
          cases rest with
          | nil =>
              rw [show sjoinTail ([] : List (List Char)) = [] from rfl,
                List.append_nil] at hco
              exact hco.2
          | cons R rs =>
              rw [show sjoinTail (R :: rs) = ' ' :: (R ++ sjoinTail rs)
                from rfl] at hco
              rw [prefix_append_sep v S _ hvn] at hco
              exact hco.2
        rw [show cur.drop off ++ ' ' :: (S ++ sjoinTail rest) =
          cur.drop off ++ ' ' :: (S ++ sjoinTail rest) from rfl]
        rw [strReplace_chunk u v (u ++ v) hu hun (cur.drop off)
          (S ++ sjoinTail rest) (noSp_drop cur off hcur) hnomatch]
        have hrec := ih S 0 hS hrest (by omega)
        rw [List.drop_zero] at hrec
        rw [hrec]
        rw [show glueScan u v cur off (S :: rest) =
          cur :: glueScan u v S 0 rest from by rw [glueScan, if_neg hcond]]
        cases hgl : glueScan u v S 0 rest with
        | nil => exact absurd hgl (glueScan_ne_nil u v rest S 0)
        | cons M tail' =>
            rw [show sjoinTokens (cur :: M :: tail') =
              cur ++ ' ' :: sjoinTokens (M :: tail') from rfl]
            rw [drop_append_left cur _ off hoff]
            simp

theorem glueScanP_flatten_map (u v : List Char) :
    ∀ (syms : List (List Char)) (g : List (List Char)) (off : Nat),
      glueScan u v g.flatten off syms =
        (glueScanP u v g off syms).map List.flatten := by
  intro syms
  induction syms with
  | nil => intro g off; simp [glueScan, glueScanP]
  | cons S rest ih =>
      intro g off
      rw [glueScan, glueScanP]
      by_cases hc : u ≠ [] ∧ off + u.length ≤ g.flatten.length ∧
          u.isSuffixOf g.flatten ∧ v.isPrefixOf S
      · rw [if_pos hc, if_pos hc]
        have h2 : g.flatten ++ S = (g ++ [S]).flatten := by simp
        rw [h2, ih (g ++ [S])]
      · rw [if_neg hc, if_neg hc]
        rw [List.map_cons]
        congr 1
        have h3 : S = [S].flatten := by simp
        conv_lhs => rw [h3]
        exact ih [S] 0

theorem glueScanP_parts (u v : List Char) :
    ∀ (syms : List (List Char)) (g : List (List Char)) (off : Nat),
      (glueScanP u v g off syms).flatten = g ++ syms := by
  intro syms
  induction syms with
  | nil => intro g off; simp [glueScanP]
  | cons S rest ih =>
      intro g off
      rw [glueScanP]
      split
      · rw [ih]
        simp
      · rw [List.flatten_cons, ih]
        simp

theorem glueScanP_groups_ne_nil (u v : List Char) :
    ∀ (syms : List (List Char)) (g : List (List Char)) (off : Nat),
      g ≠ [] → ∀ q ∈ glueScanP u v g off syms, q ≠ [] := by
  intro syms
  induction syms with
  | nil =>
      intro g off hg q hq
      simp [glueScanP] at hq
      rw [hq]
      exact hg
  | cons S rest ih =>
      intro g off hg q hq
      rw [glueScanP] at hq
      split at hq
      · exact ih (g ++ [S]) _ (by simp) q hq
      · rcases List.mem_cons.mp hq with h1 | h2
        · rw [h1]; exact hg
        · exact ih [S] 0 (by simp) q h2

theorem glueScanP_ne_nil (u v : List Char) :
    ∀ (syms : List (List Char)) (g : List (List Char)) (off : Nat),
      glueScanP u v g off syms ≠ [] := by
  intro syms
  induction syms with
  | nil => intro g off; simp [glueScanP]
  | cons S rest ih =>
      intro g off
      rw [glueScanP]
      split
      · exact ih (g ++ [S]) _
      · simp

theorem glueScanP_head_ext (u v : List Char) :
    ∀ (syms : List (List Char)) (g : List (List Char)) (off : Nat),
      ∃ gext tail, glueScanP u v g off syms = (g ++ gext) :: tail := by
  intro syms
  induction syms with
  | nil => intro g off; exact ⟨[], [], by simp [glueScanP]⟩
  | cons S rest ih =>
      intro g off
      rw [glueScanP]
      split
      · obtain ⟨gext, tail, h⟩ := ih (g ++ [S]) (g.flatten.length + v.length)
        exact ⟨[S] ++ gext, tail, by rw [h]; simp⟩
      · exact ⟨[], glueScanP u v [S] 0 rest, by simp⟩

theorem flatten_nil_of_ne_nil {α : Type} :
    ∀ (L : List (List α)), (∀ q ∈ L, q ≠ []) → L.flatten = [] → L = [] := by
  intro L hL hf
  cases L with
  | nil => rfl
  | cons q L' =>
      rw [List.flatten_cons] at hf
      have hq : q = [] := by
        cases q with
        | nil => rfl
        | cons a t => simp at hf
      exact absurd hq (hL q (by simp))

theorem glueScanP_aligned_split (u v : List Char) :
    ∀ (rest1 : List (List Char)) (g : List (List Char)) (off : Nat)
      (R : List Char) (rest2 : List (List Char))
      (P1 P2 : List (List (List Char))), g ≠ [] →
      glueScanP u v g off (rest1 ++ R :: rest2) = P1 ++ P2 →
      P1.flatten = g ++ rest1 →
      P1 = glueScanP u v g off rest1 ∧ P2 = glueScanP u v [R] 0 rest2 := by
  intro rest1
  induction rest1 with
  | nil =>
      intro g off R rest2 P1 P2 hg heq hflat
      rw [List.nil_append] at heq
      rw [List.append_nil] at hflat
      rw [glueScanP] at heq
      split at heq
      · obtain ⟨gext, tail, hh⟩ := glueScanP_head_ext u v rest2 (g ++ [R])
          (g.flatten.length + v.length)
        rw [hh] at heq
        cases P1 with
        | nil => exact absurd hflat.symm hg
        | cons q P1' =>
            have hq : (g ++ [R]) ++ gext = q := by
              have h2 := congrArg List.head? heq
              simpa using h2
            have hlen := congrArg List.length hflat
            rw [List.flatten_cons, ← hq] at hlen
            simp at hlen
      · cases P1 with
        | nil => exact absurd hflat.symm hg
        | cons q P1' =>
            simp only [List.cons_append, List.cons.injEq] at heq
            obtain ⟨hq, heq2⟩ := heq
            subst hq
            rw [List.flatten_cons] at hflat
            have hflat' : P1'.flatten = [] := by
              have h2 : g ++ P1'.flatten = g ++ [] := by
                rw [hflat]; simp
              exact List.append_cancel_left h2
            have hP1' : P1' = [] := by
              apply flatten_nil_of_ne_nil P1' _ hflat'
              intro q' hq'
              have hmem : q' ∈ glueScanP u v [R] 0 rest2 := by
                rw [heq2]
                exact List.mem_append.mpr (Or.inl hq')
              exact glueScanP_groups_ne_nil u v rest2 [R] 0 (by simp) q' hmem
            subst hP1'
            rw [List.nil_append] at heq2
            exact ⟨by simp [glueScanP], heq2.symm⟩
  | cons S rs1 ih =>
      intro g off R rest2 P1 P2 hg heq hflat
      rw [show (S :: rs1) ++ R :: rest2 = S :: (rs1 ++ R :: rest2) from rfl]
        at heq
      rw [glueScanP] at heq
      split at heq
      · rename_i hcond
        have hih := ih (g ++ [S]) (g.flatten.length + v.length) R rest2 P1 P2
          (by simp) heq (by rw [hflat]; simp)
        refine ⟨?_, hih.2⟩
        rw [hih.1]
        rw [glueScanP, if_pos hcond]
      · rename_i hcond
        cases P1 with
        | nil => exact absurd hflat.symm (by simp)
        | cons q P1' =>
            simp only [List.cons_append, List.cons.injEq] at heq
            obtain ⟨hq, heq2⟩ := heq
            subst hq
            rw [List.flatten_cons] at hflat
            have hflat' : P1'.flatten = [S] ++ rs1 := by
              have h2 : g ++ P1'.flatten = g ++ ([S] ++ rs1) := by
                rw [hflat]; simp
              exact List.append_cancel_left h2
            have hih := ih [S] 0 R rest2 P1' P2 (by simp) heq2 hflat'
            refine ⟨?_, hih.2⟩
            rw [hih.1]
            rw [glueScanP, if_neg hcond]

theorem flatten_map_flatten :
    ∀ (L : List (List (List Char))),
      (L.map List.flatten).flatten = L.flatten.flatten := by
  intro L
  induction L with
  | nil => rfl
  | cons q L' ih => simp [ih]

theorem flatten_ne_nil_of_head {α : Type} (L : List (List α)) (hL : L ≠ [])
    (hne : ∀ q ∈ L, q ≠ []) : L.flatten ≠ [] := by
  cases L with
  | nil => exact absurd rfl hL
  | cons q L' =>
      intro hf
      exact absurd (flatten_nil_of_ne_nil (q :: L') hne hf) (by simp)

theorem chainPair_pullback (x y : List Char)
    (P : List (List (List Char))) (hne : ∀ q ∈ P, q ≠ []) :
    ChainPair x y (P.map List.flatten) → ChainPair x y P.flatten := by
  rintro ⟨pre, c1, c2, post, heq, hc1, hc2, hf1, hf2⟩
  obtain ⟨PA, Ppost, hP, hmA, hmpost⟩ :=
    List.append_eq_map_iff.mp heq.symm
  obtain ⟨PB, Pc2, hPA, hmB, hmc2⟩ :=
    List.append_eq_map_iff.mp hmA.symm
  obtain ⟨Ppre, Pc1, hPB, hmpre, hmc1⟩ :=
    List.append_eq_map_iff.mp hmB.symm
  have hPfull : P = Ppre ++ Pc1 ++ Pc2 ++ Ppost := by
    rw [hP, hPA, hPB]
  refine ⟨Ppre.flatten, Pc1.flatten, Pc2.flatten, Ppost.flatten, ?_, ?_, ?_,
    ?_, ?_⟩
  · rw [hPfull]
    simp
  · apply flatten_ne_nil_of_head Pc1
    · intro h
      rw [h] at hmc1
      simp at hmc1
      exact hc1 hmc1
    · intro q hq
      exact hne q (by rw [hPfull]; simp [hq])
  · apply flatten_ne_nil_of_head Pc2
    · intro h
      rw [h] at hmc2
      simp at hmc2
      exact hc2 hmc2
    · intro q hq
      exact hne q (by rw [hPfull]; simp [hq])
  · rw [← flatten_map_flatten, hmc1, hf1]
  · rw [← flatten_map_flatten, hmc2, hf2]

theorem isSuffixOf_self (l : List Char) : l.isSuffixOf l = true := by
  rw [List.isSuffixOf_iff_suffix]

theorem isPrefixOf_self (l : List Char) : l.isPrefixOf l = true := by
  rw [List.isPrefixOf_iff_prefix]

/-- A list of nonempty groups whose concatenation is a single symbol is
one singleton group. -/
theorem parts_of_flatten_singleton {α : Type} :
    ∀ (L : List (List α)) (s : α), (∀ q ∈ L, q ≠ []) →
      L.flatten = [s] → L = [[s]] := by
  intro L s hne hf
  cases L with
  | nil => simp at hf
  | cons q L' =>
      rw [List.flatten_cons] at hf
      cases q with
      | nil => exact absurd rfl (hne [] (by simp))
      | cons a q' =>
          cases q' with
          | nil =>
              simp at hf
              have hL' : L' = [] := by
                cases L' with
                | nil => rfl
                | cons r L'' =>
                    exact absurd (hf.2 r (by simp))
                      (hne r (List.mem_cons_of_mem _ (by simp)))
              rw [hf.1, hL']
          | cons b q'' =>
              simp at hf

theorem glueScanP_no_fresh_adj (u v : List Char) (hu : u ≠ []) :
    ∀ (rest : List (List Char)) (g : List (List Char)) (off : Nat),
      g ≠ [] → (∀ S ∈ rest, S ≠ []) →
      ((off = 0 ∧ g.length = 1) ∨ u.length < g.flatten.length) →
      (∀ pre c1 c2 post, g ++ rest = pre ++ c1 ++ c2 ++ post →
        c1 ≠ [] → c2 ≠ [] → c1.flatten = u → c2.flatten = v →
        c1.length = 1 ∧ c2.length = 1) →
      ∀ P1 P2, (glueScanP u v g off rest).map List.flatten =
        P1 ++ u :: v :: P2 → False := by
  intro rest
  induction rest with
  | nil =>
      intro g off _ _ _ _ P1 P2 hadj
      rw [show glueScanP u v g off [] = [g] from rfl] at hadj
      have := congrArg List.length hadj
      simp at this
      omega
  | cons S rest' ih =>
      intro g off hg hZrest hst hH P1 P2 hadj
      have hSne : S ≠ [] := hZrest S (by simp)
      have hrest' : ∀ T ∈ rest', T ≠ [] := fun T hT =>
        hZrest T (List.mem_cons_of_mem _ hT)
      rw [glueScanP] at hadj
      split at hadj
      · rename_i hcond
        apply ih (g ++ [S]) (g.flatten.length + v.length) (by simp) hrest'
          (Or.inr (by
            have h1 : u.length ≤ g.flatten.length := by
              have := hcond.2.1
              omega
            have h2 : 0 < S.length := List.length_pos.mpr hSne
            have h3 : (g ++ [S]).flatten.length =
                g.flatten.length + S.length := by simp
            omega))
          (by
            intro pre c1 c2 post hdec hc1 hc2 hf1 hf2
            apply hH pre c1 c2 post _ hc1 hc2 hf1 hf2
            rw [← hdec]
            simp) P1 P2 hadj
      · rename_i hcond
        rw [List.map_cons] at hadj
        cases P1 with
        | nil =>
            simp only [List.nil_append, List.cons.injEq] at hadj
            obtain ⟨hgu, hadj2⟩ := hadj
            -- the freshly emitted block equals u
            have hst0 : off = 0 ∧ g.length = 1 := by
              rcases hst with h | h
              · exact h
              · rw [hgu] at h; omega
            obtain ⟨gext, tail, hh⟩ := glueScanP_head_ext u v rest' [S] 0
            rw [hh, List.map_cons] at hadj2
            have hfv : ([S] ++ gext).flatten = v := by
              have := congrArg List.head? hadj2
              simpa using this
            cases gext with
            | nil =>
                -- the boundary was a plain (u, v) adjacency: it must glue
                apply hcond
                refine ⟨hu, ?_, ?_, ?_⟩
                · rw [hst0.1, hgu]; omega
                · rw [hgu]; exact isSuffixOf_self u
                · have : S = v := by simpa using hfv
                  rw [this]; exact isPrefixOf_self v
            | cons G1 gext' =>
                -- the next output block is a glued group: a multi chain
                have hparts := glueScanP_parts u v rest' [S] 0
                rw [hh] at hparts
                rw [List.flatten_cons] at hparts
                -- ([S] ++ G1 :: gext') ++ tail.flatten = [S] ++ rest'
                have hrest'' : rest' = (G1 :: gext') ++ tail.flatten := by
                  have h2 : S :: ((G1 :: gext') ++ tail.flatten) =
                      S :: rest' := by simpa using hparts
                  exact (List.cons.injEq _ _ _ _ ▸ h2).2.symm
                have hinst := hH [] g ([S] ++ G1 :: gext') tail.flatten
                  (by rw [hrest'']; simp) hg (by simp) hgu hfv
                simp at hinst
        | cons w P1' =>
            simp only [List.cons_append, List.cons.injEq] at hadj
            exact ih [S] 0 (by simp) hrest' (Or.inl (by simp))
              (by
                intro pre c1 c2 post hdec hc1 hc2 hf1 hf2
                apply hH (g ++ pre) c1 c2 post _ hc1 hc2 hf1 hf2
                rw [show g ++ S :: rest' = g ++ ([S] ++ rest') from by simp,
                  hdec]
                simp) P1' P2 hadj.2

theorem glueScanP_no_chainPair (u v : List Char) (hu : u ≠ [])
    (rest : List (List Char)) (g : List (List Char)) (off : Nat)
    (hg : g ≠ []) (hZ : ∀ S ∈ rest, S ≠ []) (hZg : ∀ S ∈ g, S ≠ [])
    (hst : (off = 0 ∧ g.length = 1) ∨ u.length < g.flatten.length)
    (hH : ∀ pre c1 c2 post, g ++ rest = pre ++ c1 ++ c2 ++ post →
        c1 ≠ [] → c2 ≠ [] → c1.flatten = u → c2.flatten = v →
        c1.length = 1 ∧ c2.length = 1) :
    ¬ ChainPair u v ((glueScanP u v g off rest).map List.flatten) := by
  rintro ⟨pre, c1, c2, post, heq, hc1, hc2, hf1, hf2⟩
  obtain ⟨PA, Ppost, hP, hmA, hmpost⟩ :=
    List.append_eq_map_iff.mp heq.symm
  obtain ⟨PB, Pc2, hPA, hmB, hmc2⟩ :=
    List.append_eq_map_iff.mp hmA.symm
  obtain ⟨Ppre, Pc1, hPB, hmpre, hmc1⟩ :=
    List.append_eq_map_iff.mp hmB.symm
  have hPfull : glueScanP u v g off rest = Ppre ++ Pc1 ++ Pc2 ++ Ppost := by
    rw [hP, hPA, hPB]
  have hgrpne : ∀ q ∈ glueScanP u v g off rest, q ≠ [] :=
    glueScanP_groups_ne_nil u v rest g off hg
  have hic1ne : Pc1.flatten ≠ [] := by
    apply flatten_ne_nil_of_head Pc1
    · intro h
      rw [h] at hmc1
      simp at hmc1
      exact hc1 hmc1
    · intro q hq
      exact hgrpne q (by rw [hPfull]; simp [hq])
  have hic2ne : Pc2.flatten ≠ [] := by
    apply flatten_ne_nil_of_head Pc2
    · intro h
      rw [h] at hmc2
      simp at hmc2
      exact hc2 hmc2
    · intro q hq
      exact hgrpne q (by rw [hPfull]; simp [hq])
  have hif1 : (Pc1.flatten).flatten = u := by
    rw [← flatten_map_flatten, hmc1, hf1]
  have hif2 : (Pc2.flatten).flatten = v := by
    rw [← flatten_map_flatten, hmc2, hf2]
  have hdec : g ++ rest = Ppre.flatten ++ Pc1.flatten ++ Pc2.flatten ++
      Ppost.flatten := by
    have := glueScanP_parts u v rest g off
    rw [hPfull] at this
    rw [← this]
    simp
  have hlen := hH _ _ _ _ hdec hic1ne hic2ne hif1 hif2
  obtain ⟨s1, hs1⟩ := List.length_eq_one.mp hlen.1
  obtain ⟨s2, hs2⟩ := List.length_eq_one.mp hlen.2
  have hs1u : s1 = u := by
    rw [hs1] at hif1
    simpa using hif1
  have hs2v : s2 = v := by
    rw [hs2] at hif2
    simpa using hif2
  have hPc1 : Pc1 = [[u]] := by
    apply parts_of_flatten_singleton Pc1 u
    · intro q hq
      exact hgrpne q (by rw [hPfull]; simp [hq])
    · rw [hs1, hs1u]
  have hPc2 : Pc2 = [[v]] := by
    apply parts_of_flatten_singleton Pc2 v
    · intro q hq
      exact hgrpne q (by rw [hPfull]; simp [hq])
    · rw [hs2, hs2v]
  apply glueScanP_no_fresh_adj u v hu rest g off hg hZ hst hH
    (Ppre.map List.flatten) (Ppost.map List.flatten)
  rw [hPfull, hPc1, hPc2]
  simp

theorem dictInsert_fresh_append {α β : Type} [DecidableEq α] (k : α) (v : β)
    (d : List (α × β)) (h : k ∉ d.map Prod.fst) :
    dictInsert k v d = d ++ [(k, v)] := by
  induction d with
  | nil => rfl
  | cons p rest ih =>
      obtain ⟨k', v'⟩ := p
      rw [dictInsert]
      rw [if_neg (by
        intro hk
        exact h (by simp [hk]))]
      rw [ih (fun hm => h (by simp [hm]))]
      simp

theorem foldl_rekey_map (g : List Char → List Char) :
    ∀ (l acc : List (List Char × Nat)),
      (∀ kf ∈ l, g kf.1 ∉ acc.map Prod.fst) →
      (l.map (fun kf => g kf.1)).Pairwise (· ≠ ·) →
      l.foldl (fun nv wf => dictInsert (g wf.1) wf.2 nv) acc =
        acc ++ l.map (fun wf => (g wf.1, wf.2)) := by
  intro l
  induction l with
  | nil => intro acc _ _; simp
  | cons kf rest ih =>
      intro acc hfresh hpw
      rw [List.foldl_cons]
      rw [dictInsert_fresh_append _ _ _ (hfresh kf (by simp))]
      rw [List.map_cons, List.pairwise_cons] at hpw
      rw [ih (acc ++ [(g kf.1, kf.2)]) ?fresh hpw.2]
      · simp
      case fresh =>
        intro kf' hkf'
        simp only [List.map_append, List.mem_append]
        intro hmem
        rcases hmem with h1 | h2
        · exact hfresh kf' (List.mem_cons_of_mem _ hkf') h1
        · simp at h2
          exact hpw.1 (g kf'.1) (by
            simp only [List.mem_map]
            exact ⟨kf', hkf', rfl⟩) h2.symm

theorem delWs_strReplace_merge (t1 t2 k : List Char) :
    delWs (strReplace k (t1 ++ ' ' :: t2) (t1 ++ t2)) = delWs k := by
  have hpr : delWs (t1 ++ ' ' :: t2) = delWs (t1 ++ t2) := by
    rw [delWs_append, delWs_cons, delWs_append]
    simp [show isWs ' ' = true from by decide]
  exact delWs_strReplaceGo _ _ hpr k.length k le_rfl

theorem update_vocab_eq_map (t1 t2 nt : List Char)
    (vocab : List (List Char × Nat))
    (hpw : (vocab.map (fun kf => strReplace kf.1 (t1 ++ ' ' :: t2)
      nt)).Pairwise (· ≠ ·)) :
    update_vocab t1 t2 nt vocab =
      vocab.map (fun kf => (strReplace kf.1 (t1 ++ ' ' :: t2) nt, kf.2)) := by
  unfold update_vocab
  rw [foldl_rekey_map (fun k => strReplace k (t1 ++ ' ' :: t2) nt) vocab []
    (by simp) hpw]
  simp

theorem takeWhile_all_append (p : Char → Bool) :
    ∀ (A B : List Char), (∀ c ∈ A, p c = true) →
      (A ++ B).takeWhile p = A ++ B.takeWhile p := by
  intro A B hA
  induction A with
  | nil => simp
  | cons a A' ih =>
      rw [List.cons_append, List.takeWhile_cons_of_pos (hA a (by simp))]
      rw [ih (fun c hc => hA c (List.mem_cons_of_mem _ hc))]
      rfl

theorem dropWhile_all_append (p : Char → Bool) :
    ∀ (A B : List Char), (∀ c ∈ A, p c = true) →
      (A ++ B).dropWhile p = B.dropWhile p := by
  intro A B hA
  induction A with
  | nil => simp
  | cons a A' ih =>
      rw [List.cons_append, List.dropWhile_cons_of_pos (hA a (by simp))]
      exact ih (fun c hc => hA c (List.mem_cons_of_mem _ hc))

theorem splitWsGo_fuel_irrel :
    ∀ (f f' : Nat) (s : List Char), s.length ≤ f → s.length ≤ f' →
      splitWsGo f s = splitWsGo f' s := by
  intro f
  induction f with
  | zero =>
      intro f' s hf _
      have : s = [] := List.eq_nil_of_length_eq_zero (Nat.le_zero.mp hf)
      subst this
      cases f' with
      | zero => rfl
      | succ n => rfl
  | succ f ih =>
      intro f' s hf hf'
      cases s with
      | nil =>
          cases f' with
          | zero => rfl
          | succ n => rfl
      | cons c cs =>
          cases f' with
          | zero => simp at hf'
          | succ f0 =>
              rw [splitWsGo, splitWsGo]
              simp only [List.length_cons, Nat.succ_le_succ_iff] at hf hf'
              by_cases hc : isWs c
              · rw [if_pos hc, if_pos hc]
                exact ih f0 cs hf hf'
              · rw [if_neg hc, if_neg hc]
                have hlen : (cs.dropWhile (fun x => !isWs x)).length ≤
                    cs.length := (List.dropWhile_sublist _).length_le
                rw [ih f0 (cs.dropWhile (fun x => !isWs x))
                  (le_trans hlen hf) (le_trans hlen hf')]

theorem splitWs_single (S : List Char) (hS : S ≠ [])
    (hw : ∀ c ∈ S, isWs c = false) : splitWs S = [S] := by
  cases S with
  | nil => exact absurd rfl hS
  | cons c cs =>
      rw [splitWs, List.length_cons, splitWsGo]
      have hc : isWs c = false := hw c (by simp)
      rw [if_neg (by simp [hc])]
      have htk : cs.takeWhile (fun x => !isWs x) = cs := by
        have := takeWhile_all_append (fun x => !isWs x) cs []
          (fun x hx => by simp [hw x (List.mem_cons_of_mem _ hx)])
        simpa using this
      have hdr : cs.dropWhile (fun x => !isWs x) = [] := by
        have := dropWhile_all_append (fun x => !isWs x) cs []
          (fun x hx => by simp [hw x (List.mem_cons_of_mem _ hx)])
        simpa using this
      rw [htk, hdr]
      cases cs with
      | nil => rfl
      | cons c2 cs2 => rfl

theorem splitWs_cons_word (S t : List Char) (hS : S ≠ [])
    (hw : ∀ c ∈ S, isWs c = false) :
    splitWs (S ++ ' ' :: t) = S :: splitWs t := by
  cases S with
  | nil => exact absurd rfl hS
  | cons c cs =>
      rw [splitWs, List.cons_append, List.length_cons, splitWsGo]
      have hc : isWs c = false := hw c (by simp)
      rw [if_neg (by simp [hc])]
      have hwcs : ∀ x ∈ cs, (fun x => !isWs x) x = true :=
        fun x hx => by simp [hw x (List.mem_cons_of_mem _ hx)]
      rw [takeWhile_all_append _ cs (' ' :: t) hwcs]
      rw [dropWhile_all_append _ cs (' ' :: t) hwcs]
      rw [List.takeWhile_cons_of_neg (by simp [show isWs ' ' = true from by decide])]
      rw [List.dropWhile_cons_of_neg (by simp [show isWs ' ' = true from by decide])]
      rw [List.append_nil]
      have hlen : (cs ++ ' ' :: t).length = cs.length + 1 + t.length := by
        simp [Nat.add_comm, Nat.add_left_comm]
      rw [hlen]
      rw [show splitWsGo (cs.length + 1 + t.length) (' ' :: t) =
        splitWsGo (t.length + 1) (' ' :: t) from splitWsGo_fuel_irrel _ _ _
          (by simp; omega) (by simp)]
      rw [splitWsGo, if_pos (show isWs ' ' = true from by decide)]
      rw [show splitWsGo t.length t = splitWs t from rfl]

theorem splitWs_sjoinTokens :
    ∀ (syms : List (List Char)),
      (∀ S ∈ syms, S ≠ [] ∧ ∀ c ∈ S, isWs c = false) →
      splitWs (sjoinTokens syms) = syms := by
  intro syms
  induction syms with
  | nil => intro _; rfl
  | cons S rest ih =>
      intro hgood
      cases rest with
      | nil =>
          rw [show sjoinTokens [S] = S from rfl]
          exact splitWs_single S (hgood S (by simp)).1 (hgood S (by simp)).2
      | cons S2 rest2 =>
          rw [sjoinTokens]
          rw [splitWs_cons_word S _ (hgood S (by simp)).1 (hgood S (by simp)).2]
          rw [ih (fun T hT => hgood T (List.mem_cons_of_mem _ hT))]

theorem sjoinChars_eq_sjoinTokens (w : List Char) :
    sjoinChars w = sjoinTokens (w.map (fun c => [c])) := by
  induction w with
  | nil => rfl
  | cons c cs ih =>
      cases cs with
      | nil => rfl
      | cons c2 cs2 =>
          rw [sjoinChars, ih]
          rfl

theorem flatten_map_singleton {α : Type} (l : List α) :
    (l.map (fun c => [c])).flatten = l := by
  induction l with
  | nil => rfl
  | cons a t ih => simp [ih]

theorem dictArgmax_mem {α : Type} :
    ∀ (d : List (α × Nat)) (p : α × Nat), dictArgmax d = some p → p ∈ d := by
  intro d
  induction d with
  | nil => intro p h; simp [dictArgmax] at h
  | cons kv rest ih =>
      intro p h
      obtain ⟨k, v⟩ := kv
      rw [dictArgmax] at h
      cases hm : dictArgmax rest with
      | none =>
          rw [hm] at h
          simp at h
          simp [← h]
      | some q =>
          obtain ⟨k2, v2⟩ := q
          rw [hm] at h
          change (if v2 > v then some (k2, v2) else some (k, v)) = some p at h
          by_cases hgt : v2 > v
          · rw [if_pos hgt] at h
            simp at h
            exact List.mem_cons_of_mem _ (h ▸ ih (k2, v2) hm)
          · rw [if_neg hgt] at h
            simp at h
            simp [← h]

theorem mem_key_of_mem {α β : Type} (d : List (α × β)) (kv : α × β)
    (h : kv ∈ d) : kv.1 ∈ d.map Prod.fst :=
  List.mem_map.mpr ⟨kv, h, rfl⟩

theorem dictAdd_keys_cases {α : Type} [DecidableEq α] (k : α) (n : Nat) :
    ∀ (d : List (α × Nat)),
      (dictAdd k n d).map Prod.fst = d.map Prod.fst ∨
      (k ∉ d.map Prod.fst ∧
        (dictAdd k n d).map Prod.fst = d.map Prod.fst ++ [k]) := by
  intro d
  induction d with
  | nil => right; simp [dictAdd]
  | cons p rest ih =>
      obtain ⟨k', v'⟩ := p
      by_cases hk : k' = k
      · left; simp [dictAdd, hk]
      · rcases ih with h1 | ⟨h2a, h2b⟩
        · left; simp [dictAdd, hk, h1]
        · right
          constructor
          · simp only [List.map_cons, List.mem_cons]
            push_neg
            exact ⟨fun h => hk h.symm, h2a⟩
          · simp [dictAdd, hk, h2b]

theorem dictInsert_keys_cases {α β : Type} [DecidableEq α] (k : α) (v : β) :
    ∀ (d : List (α × β)),
      (dictInsert k v d).map Prod.fst = d.map Prod.fst ∨
      (k ∉ d.map Prod.fst ∧
        (dictInsert k v d).map Prod.fst = d.map Prod.fst ++ [k]) := by
  intro d
  induction d with
  | nil => right; simp [dictInsert]
  | cons p rest ih =>
      obtain ⟨k', v'⟩ := p
      by_cases hk : k' = k
      · left; simp [dictInsert, hk]
      · rcases ih with h1 | ⟨h2a, h2b⟩
        · left; simp [dictInsert, hk, h1]
        · right
          constructor
          · simp only [List.map_cons, List.mem_cons]
            push_neg
            exact ⟨fun h => hk h.symm, h2a⟩
          · simp [dictInsert, hk, h2b]

theorem dictAdd_keys_nodup {α : Type} [DecidableEq α] (k : α) (n : Nat)
    (d : List (α × Nat)) (h : (d.map Prod.fst).Nodup) :
    ((dictAdd k n d).map Prod.fst).Nodup := by
  rcases dictAdd_keys_cases k n d with h1 | ⟨h2a, h2b⟩
  · rw [h1]; exact h
  · rw [h2b]
    simp [List.nodup_append, h, h2a]

theorem dictAdd_key_sub {α : Type} [DecidableEq α] (k : α) (n : Nat)
    (d : List (α × Nat)) (x : α) (h : x ∈ (dictAdd k n d).map Prod.fst) :
    x = k ∨ x ∈ d.map Prod.fst := by
  rcases dictAdd_keys_cases k n d with h1 | ⟨_, h2b⟩
  · right; rw [← h1]; exact h
  · rw [h2b] at h
    rcases List.mem_append.mp h with ha | hb
    · right; exact ha
    · left; simpa using hb

theorem foldl_dictAdd_keys {α : Type} [DecidableEq α] (f : Nat) :
    ∀ (zs : List α) (acc : List (α × Nat)) (k : α),
      k ∈ ((zs.foldl (fun ps pr => dictAdd pr f ps) acc).map Prod.fst) →
      k ∈ zs ∨ k ∈ acc.map Prod.fst := by
  intro zs
  induction zs with
  | nil => intro acc k h; right; simpa using h
  | cons z rest ih =>
      intro acc k h
      rw [List.foldl_cons] at h
      rcases ih (dictAdd z f acc) k h with h1 | h2
      · left; exact List.mem_cons_of_mem _ h1
      · rcases dictAdd_key_sub z f acc k h2 with ha | hb
        · left; simp [ha]
        · right; exact hb

theorem foldl_dictAdd_keys_nodup {α : Type} [DecidableEq α] (f : Nat) :
    ∀ (zs : List α) (acc : List (α × Nat)),
      (acc.map Prod.fst).Nodup →
      ((zs.foldl (fun ps pr => dictAdd pr f ps) acc).map Prod.fst).Nodup := by
  intro zs
  induction zs with
  | nil => intro acc h; simpa using h
  | cons z rest ih =>
      intro acc h
      rw [List.foldl_cons]
      exact ih _ (dictAdd_keys_nodup z f acc h)

theorem get_pairs_fold_key :
    ∀ (vocab : List (List Char × Nat))
      (acc : List ((List Char × List Char) × Nat)) (k : List Char × List Char),
      k ∈ ((vocab.foldl (fun pairs wf =>
          let symbols := splitWs wf.1
          (symbols.zip symbols.tail).foldl
            (fun ps pr => dictAdd pr wf.2 ps) pairs) acc).map Prod.fst) →
      (∃ wf ∈ vocab, k ∈ (splitWs wf.1).zip (splitWs wf.1).tail) ∨
        k ∈ acc.map Prod.fst := by
  intro vocab
  induction vocab with
  | nil => intro acc k h; right; simpa using h
  | cons wf rest ih =>
      intro acc k h
      rw [List.foldl_cons] at h
      rcases ih _ k h with h1 | h2
      · left
        obtain ⟨wf', hwf', hk⟩ := h1
        exact ⟨wf', List.mem_cons_of_mem _ hwf', hk⟩
      · rcases foldl_dictAdd_keys wf.2 _ acc k h2 with ha | hb
        · left; exact ⟨wf, by simp, ha⟩
        · right; exact hb

theorem get_pairs_key (vocab : List (List Char × Nat))
    (k : List Char × List Char) (h : k ∈ (get_pairs vocab).map Prod.fst) :
    ∃ wf ∈ vocab, k ∈ (splitWs wf.1).zip (splitWs wf.1).tail := by
  rcases get_pairs_fold_key vocab [] k h with h1 | h2
  · exact h1
  · simp at h2

theorem zip_tail_adjacent {α : Type} :
    ∀ (l : List α) (p : α × α), p ∈ l.zip l.tail →
      ∃ pre post, l = pre ++ p.1 :: p.2 :: post := by
  intro l
  induction l with
  | nil => intro p h; simp at h
  | cons a t ih =>
      intro p h
      cases t with
      | nil => simp at h
      | cons b t' =>
          rw [show (a :: b :: t').tail = b :: t' from rfl,
            List.zip_cons_cons] at h
          rcases List.mem_cons.mp h with heq | htail
          · exact ⟨[], t', by simp [heq]⟩
          · obtain ⟨pre, post, hc⟩ := ih p htail
            exact ⟨a :: pre, post, by rw [List.cons_append, ← hc]⟩

theorem glueScanP_split2 (u v : List Char) (rest : List (List Char))
    (S0 : List Char) (PB PC : List (List (List Char))) (hPB : PB ≠ [])
    (heq : glueScanP u v [S0] 0 rest = PB ++ PC) :
    ∃ Mrest, PB.flatten = S0 :: Mrest ∧ PB = glueScanP u v [S0] 0 Mrest := by
  have hgrp : ∀ q ∈ glueScanP u v [S0] 0 rest, q ≠ [] :=
    glueScanP_groups_ne_nil u v rest [S0] 0 (by simp)
  have hgrpB : ∀ q ∈ PB, q ≠ [] := fun q hq =>
    hgrp q (by rw [heq]; exact List.mem_append.mpr (Or.inl hq))
  have hBf : PB.flatten ≠ [] := flatten_ne_nil_of_head PB hPB hgrpB
  have hparts : PB.flatten ++ PC.flatten = [S0] ++ rest := by
    have h0 := glueScanP_parts u v rest [S0] 0
    rw [heq] at h0
    rw [← h0]
    simp
  cases hBfe : PB.flatten with
  | nil => exact absurd hBfe hBf
  | cons B0 Brest =>
      rw [hBfe] at hparts
      simp only [List.cons_append, List.nil_append, List.append_eq,
        List.cons.injEq] at hparts
      obtain ⟨hB0, hrest⟩ := hparts
      cases PC with
      | nil =>
          rw [List.append_nil] at heq
          refine ⟨Brest, ?_, ?_⟩
          · simp [hBfe, hB0]
          · rw [← heq]
            congr 1
            rw [List.flatten_nil, List.append_nil] at hrest
            exact hrest.symm
      | cons Q PC' =>
          have hPCf : ((Q :: PC').flatten) ≠ [] :=
            flatten_ne_nil_of_head _ (by simp) (fun q hq => hgrp q (by
              rw [heq]
              exact List.mem_append.mpr (Or.inr hq)))
          cases hPCe : (Q :: PC').flatten with
          | nil => exact absurd hPCe hPCf
          | cons R rest2 =>
              rw [hPCe] at hrest
              have hsp := glueScanP_aligned_split u v Brest [S0] 0 R rest2
                PB (Q :: PC') (by simp) (by rw [hrest]; exact heq)
                (by simp [hBfe, hB0])
              exact ⟨Brest, by simp [hBfe, hB0], hsp.1⟩

theorem glueScanP_midseg (u v : List Char) (S0 : List Char)
    (rest : List (List Char)) (PA PB PC : List (List (List Char)))
    (hPB : PB ≠ []) (heq : glueScanP u v [S0] 0 rest = PA ++ PB ++ PC) :
    ∃ M0 Mrest, PB.flatten = M0 :: Mrest ∧
      PB = glueScanP u v [M0] 0 Mrest := by
  cases PA with
  | nil =>
      obtain ⟨Mrest, h1, h2⟩ := glueScanP_split2 u v rest S0 PB PC hPB
        (by simpa using heq)
      exact ⟨S0, Mrest, h1, h2⟩
  | cons A PA' =>
      have hgrp : ∀ q ∈ glueScanP u v [S0] 0 rest, q ≠ [] :=
        glueScanP_groups_ne_nil u v rest [S0] 0 (by simp)
      have hAf : ((A :: PA').flatten) ≠ [] :=
        flatten_ne_nil_of_head _ (by simp) (fun q hq => hgrp q (by
          rw [heq, List.append_assoc]
          exact List.mem_append.mpr (Or.inl hq)))
      have hBCne : PB ++ PC ≠ [] := by
        cases PB with
        | nil => exact absurd rfl hPB
        | cons b pb => simp
      have hBCf : ((PB ++ PC).flatten) ≠ [] :=
        flatten_ne_nil_of_head _ hBCne (fun q hq => hgrp q (by
          rw [heq, List.append_assoc]
          exact List.mem_append.mpr (Or.inr hq)))
      cases hAfe : (A :: PA').flatten with
      | nil => exact absurd hAfe hAf
      | cons A0 Arest =>
          cases hBCe : (PB ++ PC).flatten with
          | nil => exact absurd hBCe hBCf
          | cons M0 restM =>
              have hparts : (A :: PA').flatten ++ (PB ++ PC).flatten =
                  [S0] ++ rest := by
                have h0 := glueScanP_parts u v rest [S0] 0
                rw [heq] at h0
                rw [← h0]
                simp
              rw [hAfe, hBCe] at hparts
              simp only [List.cons_append, List.nil_append,
                List.cons.injEq] at hparts
              obtain ⟨hA0, hrest⟩ := hparts
              have hsp := glueScanP_aligned_split u v Arest [S0] 0 M0 restM
                (A :: PA') (PB ++ PC) (by simp)
                (by rw [hrest, ← List.append_assoc]; exact heq)
                (by simp [hAfe, hA0])
              obtain ⟨Mrest, h1, h2⟩ := glueScanP_split2 u v restM M0 PB PC
                hPB hsp.2.symm
              exact ⟨M0, Mrest, h1, h2⟩

theorem noSp_of_wsFree (s : List Char) (h : wsFree s) : noSp s := by
  intro hmem
  have := h ' ' hmem
  simp [isWs] at this

theorem splitWsGo_mem_ne_nil :
    ∀ (f : Nat) (s w : List Char), w ∈ splitWsGo f s → w ≠ [] := by
  intro f
  induction f with
  | zero => intro s w hw; simp [splitWsGo] at hw
  | succ f ih =>
      intro s w hw
      cases s with
      | nil => simp [splitWsGo] at hw
      | cons c cs =>
          rw [splitWsGo] at hw
          by_cases hc : isWs c
          · rw [if_pos hc] at hw
            exact ih cs w hw
          · rw [if_neg hc] at hw
            rcases List.mem_cons.mp hw with heq | htail
            · rw [heq]; simp
            · exact ih _ w htail

theorem buildVocab_key_src :
    ∀ (corpus : List (List Char)) (acc : List (List Char × Nat))
      (k : List Char), k ∈ (buildVocab corpus acc).map Prod.fst →
      (∃ s ∈ corpus, k ∈ splitWs s) ∨ k ∈ acc.map Prod.fst := by
  intro corpus
  induction corpus with
  | nil => intro acc k h; right; simpa [buildVocab] using h
  | cons s rest ih =>
      intro acc k h
      have hstep : buildVocab (s :: rest) acc =
          buildVocab rest ((splitWs s).foldl (fun v w => dictAdd w 1 v) acc) := by
        simp [buildVocab, List.foldl_cons]
      rw [hstep] at h
      rcases ih _ k h with h1 | h2
      · left
        obtain ⟨s', hs', hk⟩ := h1
        exact ⟨s', List.mem_cons_of_mem _ hs', hk⟩
      · rcases foldl_dictAdd_keys 1 (splitWs s) acc k h2 with ha | hb
        · left; exact ⟨s, by simp, ha⟩
        · right; exact hb

theorem buildVocab_keys_nodup :
    ∀ (corpus : List (List Char)) (acc : List (List Char × Nat)),
      (acc.map Prod.fst).Nodup → ((buildVocab corpus acc).map Prod.fst).Nodup := by
  intro corpus
  induction corpus with
  | nil => intro acc h; simpa [buildVocab] using h
  | cons s rest ih =>
      intro acc h
      have hstep : buildVocab (s :: rest) acc =
          buildVocab rest ((splitWs s).foldl (fun v w => dictAdd w 1 v) acc) := by
        simp [buildVocab, List.foldl_cons]
      rw [hstep]
      exact ih _ (foldl_dictAdd_keys_nodup 1 (splitWs s) acc h)

theorem glueScanP_elem_src (u v : List Char) (g syms : List (List Char))
    (q : List (List Char)) (hq : q ∈ glueScanP u v g 0 syms)
    (e : List Char) (he : e ∈ q) : e ∈ g ++ syms := by
  have hparts := glueScanP_parts u v syms g 0
  rw [← hparts]
  exact List.mem_flatten.mpr ⟨q, hq, he⟩

theorem merge_key_eq (x y : List Char) (hx : x ≠ []) (hxw : wsFree x)
    (hyw : wsFree y) (k : List Char) (hk : GoodKey k) :
    ∃ S0 Srest, splitWs k = S0 :: Srest ∧
      strReplace k (x ++ ' ' :: y) (x ++ y) =
        sjoinTokens ((glueScanP x y [S0] 0 Srest).map List.flatten) ∧
      GoodKey (strReplace k (x ++ ' ' :: y) (x ++ y)) ∧
      splitWs (strReplace k (x ++ ' ' :: y) (x ++ y)) =
        (glueScanP x y [S0] 0 Srest).map List.flatten := by
  obtain ⟨hne, hgood, hcanon⟩ := hk
  cases hsp : splitWs k with
  | nil => exact absurd hsp hne
  | cons S0 Srest =>
      rw [hsp] at hgood hcanon
      have hgoodNew : ∀ T ∈ (glueScanP x y [S0] 0 Srest).map List.flatten,
          T ≠ [] ∧ wsFree T := by
        intro T hT
        obtain ⟨q, hq, hqT⟩ := List.mem_map.mp hT
        have hqne : q ≠ [] :=
          glueScanP_groups_ne_nil x y Srest [S0] 0 (by simp) q hq
        have hqsrc : ∀ e ∈ q, e ∈ S0 :: Srest := by
          intro e he
          have := glueScanP_elem_src x y [S0] Srest q hq e he
          simpa using this
        constructor
        · rw [← hqT]
          exact flatten_ne_nil_of_head q hqne (fun e he =>
            (hgood e (hqsrc e he)).1)
        · intro c hc
          rw [← hqT] at hc
          obtain ⟨e, he, hce⟩ := List.mem_flatten.mp hc
          exact (hgood e (hqsrc e he)).2 c hce
      have hnewne : (glueScanP x y [S0] 0 Srest).map List.flatten ≠ [] := by
        intro h
        exact glueScanP_ne_nil x y Srest [S0] 0 (List.map_eq_nil_iff.mp h)
      have hrepl : strReplace k (x ++ ' ' :: y) (x ++ y) =
          sjoinTokens ((glueScanP x y [S0] 0 Srest).map List.flatten) := by
        have hk0 : k = S0 ++ sjoinTail Srest := by
          rw [hcanon, sjoinTokens_eq_head_tail]
        have hbr := strReplace_glueScan x y hx (noSp_of_wsFree x hxw)
          (noSp_of_wsFree y hyw) Srest S0 0
          (noSp_of_wsFree S0 (hgood S0 (by simp)).2)
          (fun S hS => noSp_of_wsFree S
            (hgood S (List.mem_cons_of_mem _ hS)).2)
          (Nat.zero_le _)
        rw [List.drop_zero, List.drop_zero] at hbr
        rw [hk0, hbr]
        congr 1
        have := glueScanP_flatten_map x y Srest [S0] 0
        rw [← this]
        congr 1
        simp
      have hsplitNew : splitWs (strReplace k (x ++ ' ' :: y) (x ++ y)) =
          (glueScanP x y [S0] 0 Srest).map List.flatten := by
        rw [hrepl]
        exact splitWs_sjoinTokens _ hgoodNew
      refine ⟨S0, Srest, rfl, hrepl, ⟨?_, ?_, ?_⟩, hsplitNew⟩
      · rw [hsplitNew]; exact hnewne
      · rw [hsplitNew]; exact hgoodNew
      · rw [hsplitNew, ← hrepl]

theorem trainInv_step (st : BPE) (x y : List Char) (v : Nat)
    (hinv : TrainInv st)
    (hsel : dictArgmax (get_pairs st.vocab) = some ((x, y), v)) :
    ((x ++ ' ' :: y) ∉ st.bpe_codes.map Prod.fst) ∧
      (merge_tokens st x y).bpe_codes =
        st.bpe_codes ++ [(x ++ ' ' :: y, x ++ y)] ∧
      TrainInv (merge_tokens st x y) := by
  obtain ⟨hkeys, hcons, hchain, hdws⟩ := hinv
  have hmem : ((x, y), v) ∈ get_pairs st.vocab := dictArgmax_mem _ _ hsel
  have hkey : (x, y) ∈ (get_pairs st.vocab).map Prod.fst :=
    mem_key_of_mem _ _ hmem
  obtain ⟨wf0, hwf0, hzip⟩ := get_pairs_key st.vocab (x, y) hkey
  obtain ⟨pre0, post0, hadj0⟩ := zip_tail_adjacent _ _ hzip
  have hadj : splitWs wf0.1 = pre0 ++ x :: y :: post0 := hadj0
  have hx_mem : x ∈ splitWs wf0.1 := by rw [hadj]; simp
  have hy_mem : y ∈ splitWs wf0.1 := by rw [hadj]; simp
  have hxg := (hkeys wf0 hwf0).2.1 x hx_mem
  have hyg := (hkeys wf0 hwf0).2.1 y hy_mem
  have hchain0 : ChainPair x y (splitWs wf0.1) :=
    ⟨pre0, [x], [y], post0, by rw [hadj]; simp, by simp, by simp, by simp,
      by simp⟩
  have hfresh : (x ++ ' ' :: y) ∉ st.bpe_codes.map Prod.fst := by
    intro hin
    exact hchain x y hxg.2 hyg.2 hin wf0 hwf0 hchain0
  have hcodes : (merge_tokens st x y).bpe_codes =
      st.bpe_codes ++ [(x ++ ' ' :: y, x ++ y)] := by
    show dictInsert (x ++ ' ' :: y) (x ++ y) st.bpe_codes = _
    exact dictInsert_fresh_append _ _ _ hfresh
  have hvmap : (merge_tokens st x y).vocab =
      st.vocab.map (fun kf =>
        (strReplace kf.1 (x ++ ' ' :: y) (x ++ y), kf.2)) := by
    show update_vocab x y (x ++ y) st.vocab = _
    apply update_vocab_eq_map
    have h1 : st.vocab.Pairwise (fun a b => delWs a.1 ≠ delWs b.1) :=
      (List.pairwise_map).mp hdws
    have h2 : st.vocab.Pairwise (fun a b =>
        strReplace a.1 (x ++ ' ' :: y) (x ++ y) ≠
          strReplace b.1 (x ++ ' ' :: y) (x ++ y)) := by
      refine h1.imp ?_
      intro a b hab heq
      exact hab (by
        rw [← delWs_strReplace_merge x y a.1, ← delWs_strReplace_merge x y b.1,
          heq])
    exact (List.pairwise_map).mpr h2
  have hmemchar : ∀ kf' ∈ (merge_tokens st x y).vocab, ∃ kf ∈ st.vocab,
      kf'.1 = strReplace kf.1 (x ++ ' ' :: y) (x ++ y) ∧ kf'.2 = kf.2 := by
    intro kf' hkf'
    rw [hvmap] at hkf'
    obtain ⟨kf, hkf, heq⟩ := List.mem_map.mp hkf'
    exact ⟨kf, hkf, (congrArg Prod.fst heq).symm, (congrArg Prod.snd heq).symm⟩
  refine ⟨hfresh, hcodes, ?_, ?_, ?_, ?_⟩
  · -- GoodKey for every new entry
    intro kf' hkf'
    obtain ⟨kf, hkf, h1, _⟩ := hmemchar kf' hkf'
    obtain ⟨S0, Srest, hsp, hrepl, hgoodnew, hsplitnew⟩ :=
      merge_key_eq x y hxg.1 hxg.2 hyg.2 kf.1 (hkeys kf hkf)
    rw [h1]
    exact hgoodnew
  · -- Consistency of the rewritten vocabulary
    intro kf1' hkf1' kf2' hkf2' p1 m1 q1 p2 m2 q2 hs1 hs2 hflat
    obtain ⟨kf1, hkf1, he1, _⟩ := hmemchar kf1' hkf1'
    obtain ⟨kf2, hkf2, he2, _⟩ := hmemchar kf2' hkf2'
    obtain ⟨S1, R1, hsp1, hrepl1, hgood1, hsn1⟩ :=
      merge_key_eq x y hxg.1 hxg.2 hyg.2 kf1.1 (hkeys kf1 hkf1)
    obtain ⟨S2, R2, hsp2, hrepl2, hgood2, hsn2⟩ :=
      merge_key_eq x y hxg.1 hxg.2 hyg.2 kf2.1 (hkeys kf2 hkf2)
    rw [he1, hsn1] at hs1
    rw [he2, hsn2] at hs2
    by_cases hm1 : m1 = []
    · have hm2 : m2 = [] := by
        apply flatten_nil_of_ne_nil m2
        · intro e he
          have hmem2 : e ∈ (glueScanP x y [S2] 0 R2).map List.flatten := by
            rw [hs2]
            simp [he]
          exact (hgood2.2.1 e (by rw [hsn2]; exact hmem2)).1
        · rw [← hflat, hm1]
          rfl
      rw [hm1, hm2]
    · by_cases hm2 : m2 = []
      · exact absurd (flatten_nil_of_ne_nil m1 (fun e he =>
          (hgood1.2.1 e (by
            rw [hsn1, hs1]
            simp [he])).1) (by rw [hflat, hm2]; rfl)) hm1
      · obtain ⟨PAm1, PQ1, hP1, hPAm1, hPQ1⟩ :=
          List.append_eq_map_iff.mp hs1.symm
        obtain ⟨PA1, PM1, hPAsp1, hPA1, hPM1⟩ :=
          List.append_eq_map_iff.mp hPAm1.symm
        obtain ⟨PAm2, PQ2, hP2, hPAm2, hPQ2⟩ :=
          List.append_eq_map_iff.mp hs2.symm
        obtain ⟨PA2, PM2, hPAsp2, hPA2, hPM2⟩ :=
          List.append_eq_map_iff.mp hPAm2.symm
        have hPfull1 : glueScanP x y [S1] 0 R1 = PA1 ++ PM1 ++ PQ1 := by
          rw [hP1, hPAsp1]
        have hPfull2 : glueScanP x y [S2] 0 R2 = PA2 ++ PM2 ++ PQ2 := by
          rw [hP2, hPAsp2]
        have hPM1ne : PM1 ≠ [] := by
          intro h
          rw [h] at hPM1
          exact hm1 (by rw [← hPM1]; rfl)
        have hPM2ne : PM2 ≠ [] := by
          intro h
          rw [h] at hPM2
          exact hm2 (by rw [← hPM2]; rfl)
        obtain ⟨M0, Mrest, hMf, hMeq⟩ :=
          glueScanP_midseg x y S1 R1 PA1 PM1 PQ1 hPM1ne hPfull1
        obtain ⟨N0, Nrest, hNf, hNeq⟩ :=
          glueScanP_midseg x y S2 R2 PA2 PM2 PQ2 hPM2ne hPfull2
        have hold1 : splitWs kf1.1 =
            PA1.flatten ++ (M0 :: Mrest) ++ PQ1.flatten := by
          have hparts := glueScanP_parts x y R1 [S1] 0
          rw [hPfull1] at hparts
          rw [hsp1]
          have : ([S1] : List (List Char)) ++ R1 = S1 :: R1 := rfl
          rw [← this, ← hparts, ← hMf]
          simp
        have hold2 : splitWs kf2.1 =
            PA2.flatten ++ (N0 :: Nrest) ++ PQ2.flatten := by
          have hparts := glueScanP_parts x y R2 [S2] 0
          rw [hPfull2] at hparts
          rw [hsp2]
          have : ([S2] : List (List Char)) ++ R2 = S2 :: R2 := rfl
          rw [← this, ← hparts, ← hNf]
          simp
        have hchunk : (M0 :: Mrest).flatten = (N0 :: Nrest).flatten := by
          rw [← hMf, ← hNf]
          rw [← flatten_map_flatten PM1, ← flatten_map_flatten PM2]
          rw [hPM1, hPM2, hflat]
        have hMN := hcons kf1 hkf1 kf2 hkf2 PA1.flatten (M0 :: Mrest)
          PQ1.flatten PA2.flatten (N0 :: Nrest) PQ2.flatten hold1 hold2 hchunk
        have hPMeq : PM1 = PM2 := by
          rw [hMeq, hNeq]
          rw [show M0 = N0 from by injection hMN,
            show Mrest = Nrest from by injection hMN]
        rw [← hPM1, ← hPM2, hPMeq]
  · -- NoChain for the extended merge table
    intro t1 t2 ht1w ht2w hkeymem kf' hkf' hcp
    obtain ⟨kf, hkf, h1, _⟩ := hmemchar kf' hkf'
    obtain ⟨S0, Srest, hsp, hrepl, hgoodnew, hsplitnew⟩ :=
      merge_key_eq x y hxg.1 hxg.2 hyg.2 kf.1 (hkeys kf hkf)
    rw [h1, hsplitnew] at hcp
    rw [hcodes, List.map_append, List.mem_append] at hkeymem
    have hgrpne : ∀ q ∈ glueScanP x y [S0] 0 Srest, q ≠ [] :=
      glueScanP_groups_ne_nil x y Srest [S0] 0 (by simp)
    rcases hkeymem with hold | hnew
    · have hback := chainPair_pullback t1 t2 _ hgrpne hcp
      have hflatold : (glueScanP x y [S0] 0 Srest).flatten = splitWs kf.1 := by
        rw [glueScanP_parts, hsp]
        rfl
      rw [hflatold] at hback
      exact hchain t1 t2 ht1w ht2w hold kf hkf hback
    · simp only [List.map_cons, List.map_nil, List.mem_singleton] at hnew
      obtain ⟨ht1x, ht2y⟩ := firstSpace_unique t1 x t2 y
        (noSp_of_wsFree t1 ht1w) (noSp_of_wsFree x hxg.2) hnew
      rw [ht1x, ht2y] at hcp
      have hZ : ∀ S ∈ Srest, S ≠ [] := by
        intro S hS
        exact ((hkeys kf hkf).2.1 S (by
          rw [hsp]
          exact List.mem_cons_of_mem _ hS)).1
      have hH : ∀ pre c1 c2 post,
          ([S0] : List (List Char)) ++ Srest = pre ++ c1 ++ c2 ++ post →
          c1 ≠ [] → c2 ≠ [] → c1.flatten = x → c2.flatten = y →
          c1.length = 1 ∧ c2.length = 1 := by
        intro pre c1 c2 post hdec hc1 hc2 hf1 hf2
        have hdec' : splitWs kf.1 = pre ++ c1 ++ c2 ++ post := by
          rw [hsp]
          exact hdec
        have hc1x : c1 = [x] := by
          apply hcons kf hkf wf0 hwf0 pre c1 (c2 ++ post) pre0 [x]
            (y :: post0)
          · rw [hdec']
            simp
          · rw [hadj]
            simp
          · simp [hf1]
        have hc2y : c2 = [y] := by
          apply hcons kf hkf wf0 hwf0 (pre ++ c1) c2 post (pre0 ++ [x]) [y]
            post0
          · rw [hdec']
          · rw [hadj]
            simp
          · simp [hf2]
        rw [hc1x, hc2y]
        simp
      have hZg : ∀ S ∈ ([S0] : List (List Char)), S ≠ [] := by
        intro S hS
        have hSS : S = S0 := by simpa using hS
        rw [hSS]
        exact ((hkeys kf hkf).2.1 S0 (by
          rw [hsp]
          exact List.mem_cons_self _ _)).1
      exact glueScanP_no_chainPair x y hxg.1 Srest [S0] 0 (by simp) hZ
        hZg (Or.inl ⟨rfl, rfl⟩) hH hcp
  · -- pairwise distinctness modulo whitespace
    rw [hvmap, List.map_map]
    have hcongr : st.vocab.map ((fun kf => delWs kf.1) ∘
        (fun kf => (strReplace kf.1 (x ++ ' ' :: y) (x ++ y), kf.2))) =
        st.vocab.map (fun kf => delWs kf.1) := by
      apply List.map_congr_left
      intro a _
      exact delWs_strReplace_merge x y a.1
    rw [hcongr]
    exact hdws

theorem goodKey_sjoinChars (w : List Char) (hw : w ≠ []) (hwf : wsFree w) :
    GoodKey (sjoinChars w) ∧
      splitWs (sjoinChars w) = w.map (fun c => [c]) := by
  have hgm : ∀ S ∈ w.map (fun c => [c]), S ≠ [] ∧ wsFree S := by
    intro S hS
    obtain ⟨c, hc, hcS⟩ := List.mem_map.mp hS
    refine ⟨by rw [← hcS]; simp, ?_⟩
    intro c' hc'
    rw [← hcS] at hc'
    rw [show c' = c from by simpa using hc']
    exact hwf c hc
  have hsj : sjoinChars w = sjoinTokens (w.map (fun c => [c])) :=
    sjoinChars_eq_sjoinTokens w
  have hsw : splitWs (sjoinChars w) = w.map (fun c => [c]) := by
    rw [hsj]
    exact splitWs_sjoinTokens _ hgm
  refine ⟨⟨?_, ?_, ?_⟩, hsw⟩
  · rw [hsw]
    intro h
    exact hw (List.map_eq_nil_iff.mp h)
  · rw [hsw]
    exact hgm
  · rw [hsw, hsj]

theorem middle_of_map_singleton {α : Type} (p m q : List (List α))
    (w : List α) (h : p ++ m ++ q = w.map (fun c => [c])) :
    m = m.flatten.map (fun c => [c]) := by
  obtain ⟨wpm, wq, hw, hpm, hq⟩ := List.append_eq_map_iff.mp h
  obtain ⟨wp, wm, hwpm, hp, hm⟩ := List.append_eq_map_iff.mp hpm.symm
  rw [← hm, flatten_map_singleton]

theorem trainInv_seed (corpus : List (List Char)) :
    TrainInv ⟨splitVocab (buildVocab corpus []), []⟩ := by
  have hbk : ∀ kf ∈ buildVocab corpus [], kf.1 ≠ [] ∧ wsFree kf.1 := by
    intro kf hkf
    have hk : kf.1 ∈ (buildVocab corpus []).map Prod.fst :=
      mem_key_of_mem _ _ hkf
    rcases buildVocab_key_src corpus [] kf.1 hk with ⟨s, _, hks⟩ | habs
    · exact ⟨splitWsGo_mem_ne_nil _ _ _ hks,
        splitWsGo_mem_wsFree _ _ _ hks⟩
    · simp at habs
  have hnd : ((buildVocab corpus []).map Prod.fst).Nodup :=
    buildVocab_keys_nodup corpus [] (by simp)
  have hpw1 : (buildVocab corpus []).Pairwise (fun a b => a.1 ≠ b.1) :=
    (List.pairwise_map).mp hnd
  have hpwS : ((buildVocab corpus []).map
      (fun kf => sjoinChars kf.1)).Pairwise (· ≠ ·) := by
    apply (List.pairwise_map).mpr
    apply List.Pairwise.imp_of_mem ?_ hpw1
    intro a b ha hb hne heq
    apply hne
    rw [← delWs_sjoinChars a.1 (hbk a ha).2, ← delWs_sjoinChars b.1 (hbk b hb).2,
      heq]
  have hsv : splitVocab (buildVocab corpus []) =
      (buildVocab corpus []).map (fun kf => (sjoinChars kf.1, kf.2)) := by
    show (buildVocab corpus []).foldl
        (fun nv wf => dictInsert (sjoinChars wf.1) wf.2 nv) [] = _
    rw [foldl_rekey_map sjoinChars (buildVocab corpus []) [] (by simp) hpwS]
    simp
  have hmemchar : ∀ kf' ∈ splitVocab (buildVocab corpus []),
      ∃ kf ∈ buildVocab corpus [], kf'.1 = sjoinChars kf.1 := by
    intro kf' hkf'
    rw [hsv] at hkf'
    obtain ⟨kf, hkf, heq⟩ := List.mem_map.mp hkf'
    exact ⟨kf, hkf, (congrArg Prod.fst heq).symm⟩
  refine ⟨?_, ?_, ?_, ?_⟩
  · intro kf' hkf'
    obtain ⟨kf, hkf, h1⟩ := hmemchar kf' hkf'
    rw [h1]
    exact (goodKey_sjoinChars kf.1 (hbk kf hkf).1 (hbk kf hkf).2).1
  · intro kf1' hkf1' kf2' hkf2' p1 m1 q1 p2 m2 q2 hs1 hs2 hflat
    obtain ⟨kf1, hkf1, h1⟩ := hmemchar kf1' hkf1'
    obtain ⟨kf2, hkf2, h2⟩ := hmemchar kf2' hkf2'
    rw [h1, (goodKey_sjoinChars kf1.1 (hbk kf1 hkf1).1 (hbk kf1 hkf1).2).2]
      at hs1
    rw [h2, (goodKey_sjoinChars kf2.1 (hbk kf2 hkf2).1 (hbk kf2 hkf2).2).2]
      at hs2
    have hm1 := middle_of_map_singleton p1 m1 q1 kf1.1 hs1.symm
    have hm2 := middle_of_map_singleton p2 m2 q2 kf2.1 hs2.symm
    rw [hm1, hm2, hflat]
  · intro t1 t2 _ _ hkeymem
    simp at hkeymem
  · rw [hsv, List.map_map]
    have hcongr : (buildVocab corpus []).map ((fun kf => delWs kf.1) ∘
        (fun kf => (sjoinChars kf.1, kf.2))) =
        (buildVocab corpus []).map (fun kf => kf.1) := by
      apply List.map_congr_left
      intro a ha
      exact delWs_sjoinChars a.1 (hbk a ha).2
    rw [hcongr]
    exact hnd

theorem trainReach_inv (corpus : List (List Char)) (N : Nat) (st : BPE)
    (h : TrainReach corpus N st) : TrainInv st := by
  induction h with
  | seed => exact trainInv_seed corpus
  | step st' bp v _ _ hsel _ ih =>
      exact (trainInv_step st' bp.1 bp.2 v ih hsel).2.2

theorem trainLoop_codes_ge (N : Nat) :
    ∀ (fuel : Nat) (st : BPE),
      st.bpe_codes.length ≤ (trainLoop N fuel st).bpe_codes.length := by
  intro fuel
  induction fuel with
  | zero => intro st; exact le_rfl
  | succ fuel ih =>
      intro st
      rw [trainLoop]
      by_cases hge : st.vocab.length ≥ N
      · rw [if_pos hge]
      · rw [if_neg hge]
        cases hm : dictArgmax (get_pairs st.vocab) with
        | none => exact le_rfl
        | some pv =>
            obtain ⟨bp, v⟩ := pv
            change st.bpe_codes.length ≤ (if v ≤ 1 then st
              else trainLoop N fuel (merge_tokens st bp.1 bp.2)).bpe_codes.length
            by_cases hv : v ≤ 1
            · rw [if_pos hv]
            · rw [if_neg hv]
              refine le_trans ?_ (ih (merge_tokens st bp.1 bp.2))
              exact le_dictInsert_length _ _ _
  
theorem trainLoop_reach (corpus : List (List Char)) (N : Nat) :
    ∀ (fuel : Nat) (st : BPE), TrainReach corpus N st →
      TrainReach corpus N (trainLoop N fuel st) := by
  intro fuel
  induction fuel with
  | zero => intro st h; exact h
  | succ fuel ih =>
      intro st h
      rw [trainLoop]
      by_cases hge : st.vocab.length ≥ N
      · rw [if_pos hge]
        exact h
      · rw [if_neg hge]
        cases hm : dictArgmax (get_pairs st.vocab) with
        | none => exact h
        | some pv =>
            obtain ⟨bp, v⟩ := pv
            change TrainReach corpus N (if v ≤ 1 then st
              else trainLoop N fuel (merge_tokens st bp.1 bp.2))
            by_cases hv : v ≤ 1
            · rw [if_pos hv]
              exact h
            · rw [if_neg hv]
              exact ih _ (TrainReach.step st bp v h (Nat.lt_of_not_le hge)
                hm (Nat.lt_of_not_le hv))

theorem trainBPE_reach (corpus : List (List Char)) (N M : Nat) :
    TrainReach corpus N (trainBPE corpus N M) :=
  trainLoop_reach corpus N M _ TrainReach.seed

/-- C5: merge monotonicity.  The merge table only grows during `train`:
its size never decreases across the merge loop, and at every reachable
iteration (training a fresh instance) the selected pair's key is absent
from `bpe_codes`, so recording the merge appends a brand-new entry and
never overwrites an existing one — every pair is merged at most once
over the whole run. -/
theorem c5_merge_monotonicity :
    (∀ (N fuel : Nat) (st : BPE),
        st.bpe_codes.length ≤ (trainLoop N fuel st).bpe_codes.length) ∧
      (∀ (corpus : List (List Char)) (N : Nat) (st : BPE)
          (bp : List Char × List Char) (v : Nat),
          TrainReach corpus N st →
          dictArgmax (get_pairs st.vocab) = some (bp, v) →
          (bp.1 ++ ' ' :: bp.2) ∉ st.bpe_codes.map Prod.fst ∧
            (merge_tokens st bp.1 bp.2).bpe_codes =
              st.bpe_codes ++ [(bp.1 ++ ' ' :: bp.2, bp.1 ++ bp.2)]) ∧
      (∀ (corpus : List (List Char)) (N M : Nat),
          TrainReach corpus N (trainBPE corpus N M)) := by
  refine ⟨trainLoop_codes_ge, ?_, trainBPE_reach⟩
  intro corpus N st bp v hreach hsel
  have hinv := trainReach_inv corpus N st hreach
  have hstep := trainInv_step st bp.1 bp.2 v hinv hsel
  exact ⟨hstep.1, hstep.2.1⟩

theorem c5_merge_monotonicity_witness :
    ("a".toList ++ ' ' :: "a".toList) ∉
        ((⟨splitVocab (buildVocab ["aa aa bb".toList] []), []⟩ :
          BPE).bpe_codes.map Prod.fst) ∧
      (merge_tokens (⟨splitVocab (buildVocab ["aa aa bb".toList] []), []⟩ :
          BPE) "a".toList "a".toList).bpe_codes =
        (⟨splitVocab (buildVocab ["aa aa bb".toList] []), []⟩ :
          BPE).bpe_codes ++
          [("a".toList ++ ' ' :: "a".toList, "a".toList ++ "a".toList)] :=
  c5_merge_monotonicity.2.1 ["aa aa bb".toList] 1000
    ⟨splitVocab (buildVocab ["aa aa bb".toList] []), []⟩
    ("a".toList, "a".toList) 2 TrainReach.seed (by decide)

theorem dictInsert_mem_self {α β : Type} [DecidableEq α] (k : α) (v : β)
    (d : List (α × β)) : (k, v) ∈ dictInsert k v d := by
  induction d with
  | nil => simp [dictInsert]
  | cons p rest ih =>
      obtain ⟨k', v'⟩ := p
      by_cases h : k' = k
      · simp [dictInsert, h]
      · simp only [dictInsert, if_neg h]
        exact List.mem_cons_of_mem _ ih

theorem dictInsert_mem_of_ne {α β : Type} [DecidableEq α] (k : α) (v : β)
    (d : List (α × β)) (kv : α × β) (h : kv ∈ d) (hne : kv.1 ≠ k) :
    kv ∈ dictInsert k v d := by
  induction d with
  | nil => simp at h
  | cons p rest ih =>
      obtain ⟨k', v'⟩ := p
      by_cases hk : k' = k
      · simp only [dictInsert, if_pos hk]
        rcases List.mem_cons.mp h with heq | htail
        · exact absurd (by rw [heq, hk] : kv.1 = k) hne
        · exact List.mem_cons_of_mem _ htail
      · simp only [dictInsert, if_neg hk]
        rcases List.mem_cons.mp h with heq | htail
        · rw [heq]
          exact List.mem_cons_self _ _
        · exact List.mem_cons_of_mem _ (ih htail)

theorem foldl_rekey_mem_pres (g : List Char → List Char) :
    ∀ (l acc : List (List Char × Nat)) (K : List Char) (f : Nat),
      (K, f) ∈ acc → (∀ kf' ∈ l, g kf'.1 ≠ K) →
      (K, f) ∈ l.foldl (fun nv wf => dictInsert (g wf.1) wf.2 nv) acc := by
  intro l
  induction l with
  | nil => intro acc K f hacc _; simpa using hacc
  | cons kf' rest ih =>
      intro acc K f hacc hne
      rw [List.foldl_cons]
      refine ih _ K f ?_ (fun q hq => hne q (List.mem_cons_of_mem _ hq))
      exact dictInsert_mem_of_ne _ _ _ _ hacc
        (fun h => hne kf' (by simp) (by rw [← h]))

theorem dictInsert_keys_nodup {α β : Type} [DecidableEq α] (k : α) (v : β)
    (d : List (α × β)) (h : (d.map Prod.fst).Nodup) :
    ((dictInsert k v d).map Prod.fst).Nodup := by
  rcases dictInsert_keys_cases k v d with h1 | ⟨h2a, h2b⟩
  · rw [h1]; exact h
  · rw [h2b]
    simp [List.nodup_append, h, h2a]

theorem foldl_rekey_keys_nodup (g : List Char → List Char) :
    ∀ (l acc : List (List Char × Nat)), (acc.map Prod.fst).Nodup →
      ((l.foldl (fun nv wf => dictInsert (g wf.1) wf.2 nv) acc).map
        Prod.fst).Nodup := by
  intro l
  induction l with
  | nil => intro acc h; simpa using h
  | cons kf rest ih =>
      intro acc h
      rw [List.foldl_cons]
      exact ih _ (dictInsert_keys_nodup _ _ _ h)

theorem nodup_keys_mem_unique {α β : Type} :
    ∀ (d : List (α × β)), (d.map Prod.fst).Nodup →
      ∀ (K : α) (f f' : β), (K, f) ∈ d → (K, f') ∈ d → f = f' := by
  intro d
  induction d with
  | nil => intro _ K f f' h1; simp at h1
  | cons p rest ih =>
      intro hnd K f f' h1 h2
      rw [List.map_cons, List.nodup_cons] at hnd
      rcases List.mem_cons.mp h1 with he1 | ht1 <;>
        rcases List.mem_cons.mp h2 with he2 | ht2
      · rw [← he2] at he1
        exact congrArg Prod.snd he1
      · exact absurd (List.mem_map.mpr ⟨(K, f'), ht2,
          by rw [← he1]⟩) hnd.1
      · exact absurd (List.mem_map.mpr ⟨(K, f), ht1,
          by rw [← he2]⟩) hnd.1
      · exact ih hnd.2 K f f' ht1 ht2

theorem update_vocab_keys_nodup (t1 t2 nt : List Char)
    (v : List (List Char × Nat)) :
    ((update_vocab t1 t2 nt v).map Prod.fst).Nodup := by
  have h := foldl_rekey_keys_nodup
    (fun w => strReplace w (t1 ++ ' ' :: t2) nt) v [] (by simp)
  simpa [update_vocab] using h

/-- C7 (amended): across every single merge the number of distinct
vocabulary entries never increases; and for every vocabulary, every merged
pair and every entry `kf` after which no entry rewrites to the same key,
the rewritten vocabulary binds `kf`'s rewritten key exactly to `kf`'s own
frequency — so when a merge collapses several previously distinct keys
into one, the surviving frequency is that of the later entry in insertion
order (dict overwrite), not the sum. -/
theorem c7_amended_later_entry_wins :
    (∀ (t1 t2 nt : List Char) (v : List (List Char × Nat)),
        (update_vocab t1 t2 nt v).length ≤ v.length) ∧
      ∀ (t1 t2 nt : List Char) (pre post : List (List Char × Nat))
        (kf : List Char × Nat),
        (∀ kf' ∈ post, strReplace kf'.1 (t1 ++ ' ' :: t2) nt ≠
          strReplace kf.1 (t1 ++ ' ' :: t2) nt) →
        (strReplace kf.1 (t1 ++ ' ' :: t2) nt, kf.2) ∈
            update_vocab t1 t2 nt (pre ++ kf :: post) ∧
          ∀ f', (strReplace kf.1 (t1 ++ ' ' :: t2) nt, f') ∈
              update_vocab t1 t2 nt (pre ++ kf :: post) → f' = kf.2 := by
  refine ⟨update_vocab_length, ?_⟩
  intro t1 t2 nt pre post kf hlast
  have hmem : (strReplace kf.1 (t1 ++ ' ' :: t2) nt, kf.2) ∈
      update_vocab t1 t2 nt (pre ++ kf :: post) := by
    show _ ∈ (pre ++ kf :: post).foldl (fun nv wf =>
      dictInsert (strReplace wf.1 (t1 ++ ' ' :: t2) nt) wf.2 nv) []
    rw [List.foldl_append, List.foldl_cons]
    exact foldl_rekey_mem_pres (fun w => strReplace w (t1 ++ ' ' :: t2) nt)
      post _ _ _ (dictInsert_mem_self _ _ _) hlast
  refine ⟨hmem, ?_⟩
  intro f' hf'
  exact nodup_keys_mem_unique _ (update_vocab_keys_nodup t1 t2 nt _) _ f'
    kf.2 hf' hmem

theorem c7_amended_later_entry_wins_witness :
    ("ab".toList, 3) ∈ update_vocab "a".toList "b".toList "ab".toList
        [("a b".toList, 5), ("ab".toList, 3)] :=
  (c7_amended_later_entry_wins.2 "a".toList "b".toList "ab".toList
    [("a b".toList, 5)] [] ("ab".toList, 3) (by simp)).1
